import Mathlib

/-!
# vo_gfxprim: text-escape parser, subtitle splitter, letterboxing, event loop

A shallow embedding of `video/out/vo_gfxprim.c`.

Conventions used throughout:

* a C string is the list of its bytes *before* the terminating NUL; the NUL is
  implicit after the last element (a zero byte inside the list is treated as
  the terminator as well, exactly as the C code would);
* a `const char *` walking such a string is the list of bytes from the pointer
  to the NUL (so `[]` is a pointer to the NUL itself) and the pointer
  difference `p - q` is `q.length - p.length`;
* a read of a byte lying after the terminating NUL is reported as
  `Fault.oob`; loops carry an iteration budget and report `Fault.fuel` when it
  is used up (`next_text_no_fuel` and `tokens_no_fuel` show that the parser
  never does);
* `float` and `double` arithmetic is IEEE 754 binary32 / binary64 with
  round-to-nearest-even, every operation rounded to the type of its operands;
  values are kept as exact fractions.
-/

namespace VoGfxprim

/-! ## Bytes -/

/-- The bytes of an ASCII / Latin-1 literal. -/
def bytes (s : String) : List Nat := s.toList.map Char.toNat

/-- Reason for which a run of the embedded code does not return normally. -/
inductive Fault where
  /-- a byte after the terminating NUL was dereferenced -/
  | oob
  /-- the iteration budget of the embedding was used up -/
  | fuel
  deriving DecidableEq

deriving instance DecidableEq for Except

/-- Dereference `*p` for a pointer into a NUL-terminated string. -/
def deref (p : List Nat) : Nat := p.headD 0

/-! ## The text-escape parser: `struct text`, `parse_fmt`, `next_text` -/

/-- The parser state `struct text`: read pointer `ass`, start of the current token
`str` (`none` is `NULL`), its length `len`, and the one-bit `bold` field. -/
structure text where
  ass : List Nat
  str : Option (List Nat)
  len : Nat
  bold : Bool
  deriving DecidableEq

/-- The loop of `parse_fmt` on the bytes at `text->ass`, with the local `state` and the
`bold` field threaded through; the result is the new `text->ass` and `bold`.

The loop condition `while (text->ass)` tests the pointer, which is never `NULL`, so the
only exit is the `return` on `'}'`.  When the byte read is the terminating NUL the
`default` arm runs, the pointer is incremented past the NUL and the next iteration
dereferences it there: this is the `Fault.oob` outcome. -/
def parse_fmt_loop : List Nat → Nat → Bool → Except Fault (List Nat × Bool)
  | [], _, _ => .error .oob
  | c :: rest, state, bold =>
    if c = 0 then .error .oob
    else if c = 125 then .ok (rest, bold)                         -- case '}'
    else if c = 92 then parse_fmt_loop rest 1 bold                 -- case '\\'
    else if c = 98 then                                            -- case 'b'
      parse_fmt_loop rest (if state = 1 then 2 else 0) bold
    else if c = 48 then                                            -- case '0'
      parse_fmt_loop rest 0 (if state = 2 then false else bold)
    else if c = 49 then                                            -- case '1'
      parse_fmt_loop rest 0 (if state = 2 then true else bold)
    else parse_fmt_loop rest 0 bold                                -- default

/-- The function `parse_fmt(struct text *text)`: starts with `state = 0` at `text->ass`
(which points at the `'{'` when called from `next_text`). -/
def parse_fmt (t : text) : Except Fault text :=
  match parse_fmt_loop t.ass 0 t.bold with
  | .error e => .error e
  | .ok (ass, bold) => .ok { t with ass := ass, bold := bold }

/-- The label `ret:` of `next_text`: `text->len = text->ass - text->str; return 1;`. -/
def next_text_ret (t : text) (str : List Nat) : Except Fault (Bool × text) :=
  .ok (true, { t with len := str.length - t.ass.length })

/-- The `for (;;)` loop of `next_text`, one `switch` per unit of budget.  The Boolean of
the result is the return value (`true` for 1, `false` for 0). -/
def next_text_loop : Nat → text → Except Fault (Bool × text)
  | 0, _ => .error .fuel
  | n + 1, t =>
    let c := deref t.ass
    if c = 0xfe ∨ c = 0xfd then                                    -- case 0xfe: case 0xfd:
      match t.str with
      | some s => next_text_ret t s
      | none => next_text_loop n { t with ass := t.ass.tail }
    else if c = 0 then                                             -- case 0:
      match t.str with
      | some s => next_text_ret t s
      | none => .ok (false, t)
    else if c = 123 then                                           -- case '{':
      match t.str with
      | some s => next_text_ret t s
      | none =>
        match parse_fmt t with
        | .error e => .error e
        | .ok t1 => next_text_loop n t1
    else if c = 92 then                                            -- case '\\':
      match t.str with
      | some s => next_text_ret t s
      | none =>
        let t1 := { t with str := some t.ass, ass := t.ass.tail }
        if deref t1.ass = 0 then next_text_ret t1 t.ass
        else next_text_ret { t1 with ass := t1.ass.tail } t.ass
    else                                                           -- default:
      let t1 := if t.str.isNone then { t with str := some t.ass } else t
      next_text_loop n { t1 with ass := t1.ass.tail }

/-- The function `next_text(struct text *text)`.  Every iteration of its loop either
returns or moves `ass` forward, so `length + 1` iterations are enough. -/
def next_text (t : text) : Except Fault (Bool × text) :=
  next_text_loop (t.ass.length + 1) { t with str := none }

/-- The bytes `str[0 .. len-1]` of the token held by the parser state. -/
def tok_bytes (t : text) : List Nat := (t.str.getD []).take t.len

/-- The loop `while (next_text(&text)) ...` of `render_osd_ass`: the successive parser
states in which `next_text` returned 1, and the fault that ended the loop, if any
(`none` when `next_text` returned 0). -/
def tokens_loop : Nat → text → List text × Option Fault
  | 0, _ => ([], some .fuel)
  | n + 1, t =>
    match next_text t with
    | .error e => ([], some e)
    | .ok (false, _) => ([], none)
    | .ok (true, t1) => (t1 :: (tokens_loop n t1).1, (tokens_loop n t1).2)

/-- The initial parser state of `render_osd_ass`: `struct text text = {.ass = ass};`. -/
def text_init (ass : List Nat) : text :=
  { ass := ass, str := none, len := 0, bold := false }

/-- All tokens of the string `ass`, as seen by the loop of `render_osd_ass`.  Every call
that returns 1 consumes at least one byte, so `length + 1` calls are enough. -/
def tokens (ass : List Nat) : List text × Option Fault :=
  tokens_loop (ass.length + 1) (text_init ass)

/-- The tokens of a run as (bytes, bold) pairs, with the way the run ended. -/
def tokens_view (ass : List Nat) : List (List Nat × Bool) × Option Fault :=
  ((tokens ass).1.map fun t => (tok_bytes t, t.bold), (tokens ass).2)

/-! ## The subtitle splitter of `render_sub_text` -/

/-- Offset of the terminating NUL of a string. -/
def strlen (s : List Nat) : Nat := (s.takeWhile fun c => c ≠ 0).length

/-- The read `s[k]`: defined up to and including the terminating NUL. -/
def rd (s : List Nat) (k : Nat) : Except Fault Nat :=
  if k ≤ strlen s then .ok (s.getD k 0) else .error .oob

/-- The locals of the splitting loop of `render_sub_text`.  Pointers are offsets from the
start of the subtitle string: `sub_text` is the (reassigned) parameter, `lines1` is
`lines[1]` (`none` is `NULL`), `lines[0]` stays at offset 0; `len0`, `len1` are
`lines_len[0]`, `lines_len[1]`. -/
structure split_state where
  sub_text : Nat
  lines1 : Option Nat
  len0 : Nat
  len1 : Nat
  i : Nat
  done : Bool
  deriving DecidableEq

/-- The state before the loop: `lines = {sub_text, NULL}`, `lines_len = {}`, `i = 0`,
`done = 0`. -/
def split_init : split_state :=
  { sub_text := 0, lines1 := none, len0 := 0, len1 := 0, i := 0, done := false }

/-- One iteration of `while (!done) { switch (sub_text[++lines_len[i]]) ... }`. -/
def split_step (s : List Nat) (st : split_state) : Except Fault split_state :=
  -- `++lines_len[i]`
  let st1 := if st.i = 0 then { st with len0 := st.len0 + 1 } else { st with len1 := st.len1 + 1 }
  let k := if st.i = 0 then st1.len0 else st1.len1
  match rd s (st1.sub_text + k) with
  | .error e => .error e
  | .ok c =>
    if c = 0 then .ok { st1 with done := true }                    -- case 0:
    else if c = 10 then                                            -- case '\n':
      if st1.i ≠ 0 then .ok { st1 with done := true }
      else
        let p := st1.sub_text + st1.len0 + 1
        .ok { st1 with sub_text := p, lines1 := some p, i := st1.i + 1 }
    else .ok st1

/-- The loop `while (!done)`. -/
def split_loop (s : List Nat) : Nat → split_state → Except Fault split_state
  | 0, _ => .error .fuel
  | n + 1, st =>
    if st.done then .ok st
    else
      match split_step s st with
      | .error e => .error e
      | .ok st1 => split_loop s n st1

/-- The splitting part of `render_sub_text(priv, out, sub_text)`. -/
def render_sub_text_split (s : List Nat) : Except Fault split_state :=
  split_loop s (s.length + 2) split_init

/-- The byte strings handed to `gp_text_ext` by the drawing loop of `render_sub_text`:
`(lines[i], lines_len[i])` for `i = 0, 1`, stopping at the first `NULL` entry. -/
def render_sub_text_lines (s : List Nat) : Except Fault (List (List Nat)) :=
  match render_sub_text_split s with
  | .error e => .error e
  | .ok st =>
    match st.lines1 with
    | none => .ok [s.take st.len0]
    | some p => .ok [s.take st.len0, (s.drop p).take st.len1]

/-! ## Letterboxing in `draw_frame` -/

/-- A rectangle given as `x, y, w, h`, as taken by `gp_fill_rect_xywh` and
`gp_blit_xywh`. -/
structure rect where
  x : Nat
  y : Nat
  w : Nat
  h : Nat
  deriving DecidableEq

/-- The pixel `(px, py)` lies in the rectangle: `x ≤ px < x + w` and `y ≤ py < y + h`
(an empty rectangle when `w = 0` or `h = 0`). -/
def rect.contains (r : rect) (px py : Nat) : Bool :=
  decide (r.x ≤ px) && decide (px < r.x + r.w) && decide (r.y ≤ py) && decide (py < r.y + r.h)

/-- The fields `priv->w`, `priv->h`, `priv->x_off`, `priv->y_off` set by `draw_frame` for a
surface of `W × H` pixels and a scaled frame of `fw × fh` pixels (all `gp_size`,
i.e. unsigned; no subtraction below underflows). -/
def image_rect (W H fw fh : Nat) : rect :=
  let w := min fw W
  let h := min fh H
  { x := (W - w) / 2, y := (H - h) / 2, w := w, h := h }

/-- The four `gp_fill_rect_xywh` calls of `draw_frame`, in source order: top, left, bottom,
right. -/
def border_rects (W H fw fh : Nat) : List rect :=
  let r := image_rect W H fw fh
  [ { x := 0, y := 0, w := W, h := r.y },
    { x := 0, y := 0, w := r.x, h := H },
    { x := 0, y := r.y + r.h, w := W, h := H - r.y - r.h },
    { x := r.x + r.w, y := 0, w := W - r.x - r.w, h := H } ]

/-- Number of rectangles among the four borders and the image that contain a pixel. -/
def cover_count (W H fw fh px py : Nat) : Nat :=
  ((border_rects W H fw fh ++ [image_rect W H fw fh]).filter fun r => r.contains px py).length

/-! ## The event loop `wait_events` -/

/-- The fields of a backend event `gp_event` read by `wait_events`. -/
structure gp_event where
  type : Nat
  code : Nat
  /-- the field `ev->key.key` -/
  key : Nat
  /-- the field `ev->key.utf` -/
  utf : Nat
  /-- the field `ev->sys.w` -/
  sys_w : Nat
  /-- the field `ev->sys.h` -/
  sys_h : Nat
  /-- the field `ev->st->cursor_x` -/
  cursor_x : Int
  /-- the field `ev->st->cursor_y` -/
  cursor_y : Int
  deriving DecidableEq

/-- The constants and helpers that `wait_events` takes from the gfxprim and mpv headers
(not part of this file): their values are parameters of the embedding. -/
structure env where
  GP_EV_SYS : Nat
  GP_EV_REL : Nat
  GP_EV_KEY : Nat
  GP_EV_FD : Nat
  GP_EV_SYS_QUIT : Nat
  GP_EV_SYS_RESIZE : Nat
  GP_EV_REL_POS : Nat
  GP_EV_KEY_DOWN : Nat
  GP_BTN_LEFT : Nat
  GP_BTN_RIGHT : Nat
  MP_KEY_CLOSE_WIN : Nat
  MP_MBTN_LEFT : Nat
  MP_MBTN_RIGHT : Nat
  MP_KEY_STATE_DOWN : Nat
  MP_KEY_STATE_UP : Nat
  /-- the predicate `gp_ev_utf_is_ctrl(ev)` -/
  gp_ev_utf_is_ctrl : gp_event → Bool
  /-- the result of `lookup_key(ev)`, i.e. of `lookup_keymap_table(keysym_map, ev->key.key)` -/
  lookup_key : gp_event → Nat

/-- The effects of `wait_events` on its collaborators, in program order. -/
inductive action where
  /-- the call `mp_input_put_key(vo->input_ctx, k)` -/
  | put_key (k : Nat)
  /-- the call `mp_input_set_mouse_pos(vo->input_ctx, x, y, false)` -/
  | set_mouse_pos (x y : Int)
  /-- the sequence `resize_buffers(vo, w, h); gp_backend_resize_ack; gp_fill; gp_backend_flip` -/
  | resize (w h : Nat)
  /-- the call `mp_flush_wakeup_pipe(priv->wakeup_pipe[0])` -/
  | flush_wakeup_pipe
  deriving DecidableEq

/-- The body of the loop `while ((ev = gp_backend_ev_poll(priv->backend)))` for one polled
event: the actions performed, and whether the body executes `return`. -/
def handle_event (K : env) (ev : gp_event) : List action × Bool :=
  if ev.type = K.GP_EV_SYS then
    if ev.code = K.GP_EV_SYS_QUIT then ([.put_key K.MP_KEY_CLOSE_WIN], false)
    else if ev.code = K.GP_EV_SYS_RESIZE then ([.resize ev.sys_w ev.sys_h], false)
    else ([], false)
  else if ev.type = K.GP_EV_REL then
    if ev.code = K.GP_EV_REL_POS then ([.set_mouse_pos ev.cursor_x ev.cursor_y], false)
    else ([], false)
  else if ev.type = K.GP_EV_KEY then
    if ev.key = K.GP_BTN_LEFT then
      ([.put_key (K.MP_MBTN_LEFT ||| (if ev.code ≠ 0 then K.MP_KEY_STATE_DOWN else K.MP_KEY_STATE_UP))],
        false)
    else if ev.key = K.GP_BTN_RIGHT then
      ([.put_key (K.MP_MBTN_RIGHT ||| (if ev.code ≠ 0 then K.MP_KEY_STATE_DOWN else K.MP_KEY_STATE_UP))],
        false)
    else if ev.code = K.GP_EV_KEY_DOWN then
      if ev.utf ≠ 0 ∧ K.gp_ev_utf_is_ctrl ev = false then ([.put_key ev.utf], true)
      else if K.lookup_key ev ≠ 0 then ([.put_key (K.lookup_key ev)], false)
      else ([], false)
    else ([], false)
  else if ev.type = K.GP_EV_FD then ([.flush_wakeup_pipe], false)
  else ([], false)

/-- The polling loop of `wait_events` on the backend's event queue (head polled first): the
actions performed and the events left in the queue when the function returns. -/
def wait_events (K : env) : List gp_event → List action × List gp_event
  | [] => ([], [])
  | ev :: queue =>
    if (handle_event K ev).2 then ((handle_event K ev).1, queue)
    else ((handle_event K ev).1 ++ (wait_events K queue).1, (wait_events K queue).2)

/-! ## Reference descriptions of the token stream -/

/-- The digit of the last occurrence in `g` of a backslash immediately followed by `b`
immediately followed by `0` or `1` (`false` for `0`, `true` for `1`); `none` when `g` has no
such occurrence. -/
def lastBoldDigit : List Nat → Option Bool
  | [] => none
  | c :: rest =>
    match lastBoldDigit rest with
    | some d => some d
    | none =>
      if c = 92 ∧ rest.take 2 = [98, 48] then some false
      else if c = 92 ∧ rest.take 2 = [98, 49] then some true
      else none

/-- The bold flag in force after the bytes `pre`, read from a token boundary with flag `b`:
outside groups a backslash hides the byte after it, a `'{'` opens a group that extends to
the first `'}'`, and a closed group sets the flag to the digit of its last `\b0` / `\b1`,
if it has one.  The second argument is `none` outside groups and `some g` inside a group
whose bytes so far are `g`. -/
def specBold : List Nat → Option (List Nat) → Bool → Bool
  | [], _, b => b
  | c :: rest, some g, b =>
    if c = 125 then specBold rest none ((lastBoldDigit g).getD b)
    else specBold rest (some (g ++ [c])) b
  | [c], none, b => if c = 123 then specBold [] (some []) b else b
  | c :: d :: rest, none, b =>
    if c = 123 then specBold (d :: rest) (some []) b
    else if c = 92 then specBold rest none b
    else specBold (d :: rest) none b

/-- The bytes of `s` that lie before the position `p` (a pointer into `s`). -/
def before (s p : List Nat) : List Nat := s.take (s.length - p.length)

/-- A byte that ends a literal run in `next_text`: a sentinel, the NUL, `'{'` or a
backslash. -/
def is_stop (c : Nat) : Prop := c = 0xfe ∨ c = 0xfd ∨ c = 0 ∨ c = 123 ∨ c = 92

instance (c : Nat) : Decidable (is_stop c) := by unfold is_stop; infer_instance

/-- The bytes that `next_text` passes over before a token: sentinels and closed groups. -/
inductive SkipSeq : List Nat → Prop where
  | nil : SkipSeq []
  | sentinel (c : Nat) (sk : List Nat) : (c = 0xfe ∨ c = 0xfd) → SkipSeq sk → SkipSeq (c :: sk)
  | group (g sk : List Nat) : (∀ c ∈ g, c ≠ 125 ∧ c ≠ 0) → SkipSeq sk →
      SkipSeq (123 :: (g ++ 125 :: sk))

/-- The shape of a token that starts at `s` and ends at `r`: a backslash and the byte after
it; a lone backslash directly before the NUL; or a non-empty run of plain bytes that is
followed by a stop byte. -/
def TokShape (s r : List Nat) : Prop :=
  (∃ c, c ≠ 0 ∧ s = 92 :: c :: r) ∨
  (s = 92 :: r ∧ deref r = 0) ∨
  (∃ run, run ≠ [] ∧ s = run ++ r ∧ (∀ c ∈ run, ¬ is_stop c) ∧ is_stop (deref r))

/-- The token states `toks` split the whole string `s` from left to right without gaps:
each token starts where the previous one ended, and is either a backslash with the byte
after it, or a backslash alone at the very end of the string, or a non-empty run of bytes
other than the backslash that extends up to the next backslash or the end of the string. -/
def WellTokenized : List Nat → List text → Prop
  | s, [] => s = []
  | s, t :: rest =>
    t.str = some s ∧ t.len ≤ s.length ∧ t.ass = s.drop t.len ∧
    ((∃ c, s.take 2 = [92, c] ∧ t.len = 2) ∨
     (s = [92] ∧ t.len = 1) ∨
     (0 < t.len ∧ (∀ c ∈ s.take t.len, c ≠ 92) ∧
       ((s.drop t.len).head? = none ∨ (s.drop t.len).head? = some 92))) ∧
    WellTokenized (s.drop t.len) rest

/-- An assignment of pairwise distinct values to the constants of `env`, with a key table
that maps nothing, used to instantiate the statements about `wait_events`. -/
def env_sample : env :=
  { GP_EV_SYS := 4, GP_EV_REL := 2, GP_EV_KEY := 1, GP_EV_FD := 6,
    GP_EV_SYS_QUIT := 0, GP_EV_SYS_RESIZE := 1, GP_EV_REL_POS := 0, GP_EV_KEY_DOWN := 1,
    GP_BTN_LEFT := 272, GP_BTN_RIGHT := 273,
    MP_KEY_CLOSE_WIN := 1000, MP_MBTN_LEFT := 2000, MP_MBTN_RIGHT := 2002,
    MP_KEY_STATE_DOWN := 4096, MP_KEY_STATE_UP := 8192,
    gp_ev_utf_is_ctrl := fun ev => decide (ev.utf < 32),
    lookup_key := fun _ => 0 }

/-- A system-quit event for `env_sample`. -/
def ev_quit_sample : gp_event :=
  { type := 4, code := 0, key := 0, utf := 0, sys_w := 0, sys_h := 0, cursor_x := 0, cursor_y := 0 }

/-- The bytes that the local `state` of `parse_fmt` remembers: a backslash for 1, a
backslash and a `b` for 2, nothing for 0. -/
def pfx (state : Nat) : List Nat :=
  if state = 1 then [92] else if state = 2 then [92, 98] else []

/-! ## Single and double precision arithmetic -/

/-- The integer nearest to `n / d`, ties to the even integer. -/
def round_even (n d : Nat) : Nat :=
  if 2 * (n % d) < d then n / d
  else if d < 2 * (n % d) then n / d + 1
  else if (n / d) % 2 = 0 then n / d else n / d + 1

/-- Number of binary digits of `n`, counted in at most `fuel` steps. -/
def bitlen_aux : Nat → Nat → Nat
  | 0, _ => 0
  | fuel + 1, n => if n = 0 then 0 else bitlen_aux fuel (n / 2) + 1

/-- Number of binary digits of `n`. -/
def bitlen (n : Nat) : Nat := bitlen_aux n n

/-- A non-negative finite value of a binary floating-point type, as the fraction
`num / den`. -/
structure fval where
  num : Nat
  den : Nat
  deriving DecidableEq

/-- The value with a `p`-bit significand nearest to `a / b`, ties to even (IEEE 754
round-to-nearest-even; the exponent range is not modelled, no value in play leaves it).
The fraction is first scaled by a power of two so that its integer part has exactly `p`
bits, then rounded to an integer. -/
def fl (p a b : Nat) : fval :=
  if a = 0 ∨ b = 0 then ⟨0, 1⟩
  else
    let n := a * 2 ^ (p + bitlen b)
    let d := b * 2 ^ bitlen a
    if d * 2 ^ p ≤ n then ⟨round_even n (2 * d) * 2 ^ (bitlen a + 1), 2 ^ (p + bitlen b)⟩
    else ⟨round_even n d * 2 ^ bitlen a, 2 ^ (p + bitlen b)⟩

/-- Conversion to `float` (binary32). -/
def to_float (v : fval) : fval := fl 24 v.num v.den

/-- Conversion of a non-negative integer to `float`. -/
def int_to_float (n : Nat) : fval := fl 24 n 1

/-- The `double` quotient `(double)x / (double)y` of two integers below `2^53`. -/
def double_div (x y : Nat) : fval := fl 53 x y

/-- The `float` product. -/
def float_mul (u v : fval) : fval := fl 24 (u.num * v.num) (u.den * v.den)

/-- The `float` sum. -/
def float_add (u v : fval) : fval := fl 24 (u.num * v.den + v.num * u.den) (u.den * v.den)

/-- The comparison `u < v`. -/
def fval.lt (u v : fval) : Bool := decide (u.num * v.den < v.num * u.den)

/-- Conversion of a non-negative floating value to an integer type: truncation. -/
def fval.trunc (v : fval) : Nat := v.num / v.den

/-- A value of a binary floating-point type that is not negative: a finite value, `+∞`, or
a NaN. -/
inductive xval where
  | fin (v : fval)
  | inf
  | nan
  deriving DecidableEq

/-- The `double` quotient `1.00 * x / y` of a `gp_size` by a non-negative `int`: `+∞` when a
non-zero `x` is divided by 0, a NaN when 0 is divided by 0. -/
def xval.quot (x y : Nat) : xval :=
  if y = 0 then (if x = 0 then .nan else .inf) else .fin (double_div x y)

/-- The comparison `u < v`, which is false when an operand is a NaN. -/
def xval.lt : xval → xval → Bool
  | .fin u, .fin v => u.lt v
  | .fin _, .inf => true
  | _, _ => false

/-- The macro `GP_MIN(a, b)`, i.e. `a < b ? a : b`. -/
def GP_MIN (u v : xval) : xval := if u.lt v then u else v

/-- The macro `GP_MAX(a, b)`, i.e. `a > b ? a : b`. -/
def GP_MAX (u v : xval) : xval := if v.lt u then u else v

/-- Conversion of a `double` to `float`. -/
def xval.to_float : xval → xval
  | .fin v => .fin (VoGfxprim.to_float v)
  | .inf => .inf
  | .nan => .nan

/-- The `float` product `n * r` of a non-negative `int` and a `float`: 0 times `+∞` is a
NaN. -/
def xval.mul_int (n : Nat) : xval → xval
  | .fin v => .fin (float_mul (int_to_float n) v)
  | .inf => if n = 0 then .nan else .inf
  | .nan => .nan

/-- Conversion of a `float` to `gp_size` (a 32-bit unsigned integer): the value is truncated;
there is no result when the truncated value is not below `2^32`, or for `+∞` or a NaN. -/
def xval.to_gp_size : xval → Option Nat
  | .fin v => if v.trunc < 4294967296 then some v.trunc else none
  | .inf => none
  | .nan => none

/-- The scaled-buffer size `(new_w, new_h)` computed by `resize_buffers` for a frame of
`frame_w × frame_h` pixels (non-negative `int` values) and a surface of `screen_w × screen_h`
pixels (`gp_size` values).  The result is `none` when an argument is not a value of its type
or when a conversion to `gp_size` has no result. -/
def resize_buffers (frame_w frame_h screen_w screen_h : Nat) : Option (Nat × Nat) :=
  if 2147483648 ≤ frame_w ∨ 2147483648 ≤ frame_h ∨ 4294967296 ≤ screen_w ∨
      4294967296 ≤ screen_h then none
  else
    -- float rat = GP_MIN(1.00 * screen_w/priv->frame_w, 1.00 * screen_h/priv->frame_h);
    let rat := (GP_MIN (xval.quot screen_w frame_w) (xval.quot screen_h frame_h)).to_float
    -- gp_size new_w = GP_MAX(1, priv->frame_w * rat);
    let new_w := (GP_MAX (.fin (int_to_float 1)) (rat.mul_int frame_w)).to_gp_size
    -- gp_size new_h = GP_MAX(1, priv->frame_h * rat);
    let new_h := (GP_MAX (.fin (int_to_float 1)) (rat.mul_int frame_h)).to_gp_size
    match new_w, new_h with
    | some w, some h => some (w, h)
    | _, _ => none

/-! ## The progress bar of `render_progbar` -/

/-- The two pixel values `priv->white` and `priv->black`. -/
inductive color where
  | white
  | black
  deriving DecidableEq

/-- The drawing calls made by `render_progbar`, with their geometric arguments. -/
inductive draw_op where
  /-- the call `gp_rect_xywh(out, x, y, w, h, c)` -/
  | rect_xywh (x y : Int) (w h : Nat) (c : color)
  /-- the call `gp_fill_rect_xywh(out, x, y, w, h, c)` -/
  | fill_rect_xywh (x y : Int) (w h : Nat) (c : color)
  /-- the call `gp_vline_xyh(out, x, y, h, c)` -/
  | vline_xyh (x y : Int) (h : Nat) (c : color)
  deriving DecidableEq

/-- A finite `float` with its sign: `neg` is the sign bit, `mag` the absolute value. -/
structure sval where
  neg : Bool
  mag : fval
  deriving DecidableEq

/-- Conversion of an `int` to `float`. -/
def sval.of_int (z : Int) : sval := ⟨decide (z < 0), int_to_float z.natAbs⟩

/-- The `float` difference `u - v` of two non-negative values with `v ≤ u`. -/
def float_sub (u v : fval) : fval := fl 24 (u.num * v.den - v.num * u.den) (u.den * v.den)

/-- The `float` product of two signed values. -/
def sval.mul (a b : sval) : sval := ⟨a.neg != b.neg, float_mul a.mag b.mag⟩

/-- The `float` sum of two signed values. -/
def sval.add (a b : sval) : sval :=
  if a.neg = b.neg then ⟨a.neg, float_add a.mag b.mag⟩
  else if b.mag.lt a.mag then ⟨a.neg, float_sub a.mag b.mag⟩
  else if a.mag.lt b.mag then ⟨b.neg, float_sub b.mag a.mag⟩
  else ⟨false, ⟨0, 1⟩⟩

/-- Conversion of a `float` to `gp_size` (a 32-bit unsigned integer): the value is truncated
towards zero; there is no result when the truncated value is negative or not below `2^32`. -/
def sval.to_gp_size (a : sval) : Option Nat :=
  if a.neg then (if a.mag.trunc = 0 then some 0 else none)
  else if a.mag.trunc < 4294967296 then some a.mag.trunc else none

/-- Conversion of a `float` to `gp_coord` (a 32-bit `int`): the value is truncated towards
zero; there is no result when the truncated value is outside the range of `int`. -/
def sval.to_gp_coord (a : sval) : Option Int :=
  if a.neg then (if a.mag.trunc ≤ 2147483648 then some (-(a.mag.trunc : Int)) else none)
  else if a.mag.trunc < 2147483648 then some (a.mag.trunc : Int) else none

/-- Conversion of an unsigned 32-bit value, given modulo `2^32`, to `gp_coord`. -/
def to_gp_coord (z : Int) : Int := (z + 2147483648) % 4294967296 - 2147483648

/-- Conversion of an `int` argument to the parameter type `gp_size`. -/
def to_gp_size (z : Int) : Nat := (z % 4294967296).toNat

/-- The body of the loop over `progbar_state->stops` for one stop fraction; `none` when the
conversion of the position to `gp_coord` has no result. -/
def render_stop (x w y : Int) (h : Nat) (stop : fval) : Option (List draw_op) :=
  -- gp_coord stop_x = x + w * progbar_state->stops[i];
  match ((sval.of_int x).add ((sval.of_int w).mul ⟨false, stop⟩)).to_gp_coord with
  | none => none
  | some stop_x =>
    some [.vline_xyh (stop_x - 1) y h .white, .vline_xyh stop_x y h .black,
          .vline_xyh (stop_x + 1) y h .white]

/-- The loop over `progbar_state->stops`. -/
def render_stops (x w y : Int) (h : Nat) : List fval → Option (List draw_op)
  | [] => some []
  | stop :: rest =>
    match render_stop x w y h stop, render_stops x w y h rest with
    | some a, some b => some (a ++ b)
    | _, _ => none

/-- The function `render_progbar` for a bar of type `type`, OSD line height `text_h`,
subtitle line height `sub_h` (both `gp_size` values) and a surface of `W × H` pixels, with
the non-negative fractions `value` and `stops`: the drawing calls in program order.  The
differences `H - 4 * sub_h` and `W - 2 * text_h` are computed modulo `2^32` and converted to
`gp_coord`, so the interior width `w` is negative on a surface narrower than `2 * text_h`;
the additions of small constants to a `gp_coord` are taken without overflow.  The result is
`none` when the conversion of a `float` to `gp_size` or `gp_coord` has no result. -/
def render_progbar (type : Int) (text_h sub_h W H : Nat) (value : fval) (stops : List fval) :
    Option (List draw_op) :=
  if type < 0 then some []
  else
    let x : Int := to_gp_coord text_h
    let y : Int := to_gp_coord ((H : Int) - 4 * sub_h)
    let w : Int := to_gp_coord ((W : Int) - 2 * text_h)
    let h : Int := to_gp_coord text_h
    -- gp_fill_rect_xywh(out, x, y, w * progbar_state->value, h, priv->white);
    let fill_w := ((sval.of_int w).mul ⟨false, value⟩).to_gp_size
    -- gp_vline_xyh(out, x + w * progbar_state->value, y, h, priv->black);
    let head_x := ((sval.of_int x).add ((sval.of_int w).mul ⟨false, value⟩)).to_gp_coord
    match fill_w, head_x, render_stops x w y (to_gp_size h) stops with
    | some fw, some hx, some ticks =>
      some ([ .rect_xywh (x - 2) (y - 2) (to_gp_size (w + 4)) (to_gp_size (h + 4)) .white,
              .rect_xywh (x - 1) (y - 1) (to_gp_size (w + 2)) (to_gp_size (h + 2)) .black,
              .rect_xywh x y (to_gp_size w) (to_gp_size h) .white,
              .fill_rect_xywh x y fw (to_gp_size h) .white,
              .vline_xyh hx y (to_gp_size h) .black ] ++ ticks)
    | _, _, _ => none

/-- Every group opened in the string, read from a token boundary, is closed: outside
groups a backslash hides the byte after it and a `'{'` opens a group; inside a group the
first `'}'` closes it; the end of the string must be reached outside a group.  The second
argument tells whether the walk is inside a group. -/
def groups_closed : List Nat → Bool → Bool
  | [], inside => !inside
  | c :: rest, true => if c = 125 then groups_closed rest false else groups_closed rest true
  | [c], false => decide (c ≠ 123)
  | c :: d :: rest, false =>
    if c = 123 then groups_closed (d :: rest) true
    else if c = 92 then groups_closed rest false
    else groups_closed (d :: rest) false

/-! ## The key table `keysym_map` and `lookup_key` -/

/-- The backend key names `GP_KEY_*` used in `keysym_map`.  `F n` is `GP_KEY_F1` ..
`GP_KEY_F24` and `KP n` is `GP_KEY_KP_0` .. `GP_KEY_KP_9`.  Their numeric values are
declared in the gfxprim headers and are a parameter wherever they matter. -/
inductive gp_key where
  | PAUSE | ESC | BACKSPACE | TAB | ENTER | MENU | PRINT | CANCEL
  | LEFT | RIGHT | UP | DOWN
  | INSERT | DELETE | HOME | END | PAGE_UP | PAGE_DOWN
  | F (n : Nat)
  | KP_PLUS | KP_MINUS | KP_ASTERISK | KP_SLASH | KP_ENTER
  | KP (n : Nat)
  | KP_DOT
  deriving DecidableEq

/-- The abstract key names `MP_KEY_*` used in `keysym_map`.  `F n` is `MP_KEY_F+n` and
`KP n` is `MP_KEY_KP0` .. `MP_KEY_KP9`.  Their numeric values are declared in the mpv
headers and are a parameter wherever they matter. -/
inductive mp_key where
  | PAUSE | ESC | BS | TAB | ENTER | MENU | PRINT | CANCEL
  | LEFT | RIGHT | UP | DOWN
  | INSERT | DELETE | HOME | END | PAGE_UP | PAGE_DOWN
  | F (n : Nat)
  | KPADD | KPSUBTRACT | KPMULTIPLY | KPDIVIDE | KPENTER
  | KP (n : Nat)
  | KPDEC
  deriving DecidableEq

/-- The table `keysym_map`, entry by entry in source order, without the final `{}`.  The
flag `kpadd` tells whether `MP_KEY_KPADD` is defined (the four entries under `#ifdef`). -/
def keysym_map (kpadd : Bool) : List (gp_key × mp_key) :=
  [ (.PAUSE, .PAUSE), (.ESC, .ESC), (.BACKSPACE, .BS), (.TAB, .TAB), (.ENTER, .ENTER),
    (.MENU, .MENU), (.PRINT, .PRINT), (.CANCEL, .CANCEL), (.TAB, .TAB),
    (.LEFT, .LEFT), (.RIGHT, .RIGHT), (.UP, .UP), (.DOWN, .DOWN),
    (.INSERT, .INSERT), (.DELETE, .DELETE), (.HOME, .HOME), (.END, .END),
    (.PAGE_UP, .PAGE_UP), (.PAGE_DOWN, .PAGE_DOWN),
    (.F 1, .F 1), (.F 2, .F 2), (.F 3, .F 3), (.F 4, .F 4), (.F 5, .F 5), (.F 6, .F 6),
    (.F 7, .F 7), (.F 8, .F 8), (.F 9, .F 9), (.F 10, .F 10), (.F 11, .F 11), (.F 12, .F 12),
    (.F 13, .F 13), (.F 14, .F 14), (.F 15, .F 15), (.F 16, .F 16), (.F 17, .F 17),
    (.F 18, .F 18), (.F 19, .F 19), (.F 20, .F 20), (.F 21, .F 21), (.F 22, .F 22),
    (.F 23, .F 23), (.F 24, .F 24) ] ++
  (if kpadd then
    [ (.KP_PLUS, .KPADD), (.KP_MINUS, .KPSUBTRACT), (.KP_ASTERISK, .KPMULTIPLY),
      (.KP_SLASH, .KPDIVIDE) ]
   else []) ++
  [ (.KP_ENTER, .KPENTER),
    (.KP 0, .KP 0), (.KP 1, .KP 1), (.KP 2, .KP 2), (.KP 3, .KP 3), (.KP 4, .KP 4),
    (.KP 5, .KP 5), (.KP 6, .KP 6), (.KP 7, .KP 7), (.KP 8, .KP 8), (.KP 9, .KP 9),
    (.KP_DOT, .KPDEC) ]

/-- The table `keysym_map` with the numeric values `gc` of the backend key names and `mc` of
the abstract key names. -/
def keysym_codes (gc : gp_key → Nat) (mc : mp_key → Nat) (kpadd : Bool) : List (Nat × Nat) :=
  (keysym_map kpadd).map fun e => (gc e.1, mc e.2)

/-- Modelled from the spec: the helper `lookup_keymap_table` of the host player, which is
not part of this file.  The table is searched linearly, the first entry whose source is
`key` wins, and the result is 0 when no entry matches. -/
def lookup_keymap_table : List (Nat × Nat) → Nat → Nat
  | [], _ => 0
  | e :: rest, key => if e.1 = key then e.2 else lookup_keymap_table rest key

/-- The function `lookup_key(ev)`: `lookup_keymap_table(keysym_map, ev->key.key)`. -/
def lookup_key (gc : gp_key → Nat) (mc : mp_key → Nat) (kpadd : Bool) (ev : gp_event) : Nat :=
  lookup_keymap_table (keysym_codes gc mc kpadd) ev.key

/-- Sample numeric values for the backend key names (pairwise distinct). -/
def gp_code_sample : gp_key → Nat
  | .PAUSE => 119 | .ESC => 1 | .BACKSPACE => 14 | .TAB => 15 | .ENTER => 28 | .MENU => 139
  | .PRINT => 210 | .CANCEL => 223
  | .LEFT => 105 | .RIGHT => 106 | .UP => 103 | .DOWN => 108
  | .INSERT => 110 | .DELETE => 111 | .HOME => 102 | .END => 107 | .PAGE_UP => 104
  | .PAGE_DOWN => 109
  | .F n => 1000 + n
  | .KP_PLUS => 78 | .KP_MINUS => 74 | .KP_ASTERISK => 55 | .KP_SLASH => 98 | .KP_ENTER => 96
  | .KP n => 2000 + n
  | .KP_DOT => 83

/-- Sample numeric values for the abstract key names (pairwise distinct and non-zero). -/
def mp_code_sample : mp_key → Nat
  | .PAUSE => 5001 | .ESC => 5002 | .BS => 5003 | .TAB => 5004 | .ENTER => 5005
  | .MENU => 5006 | .PRINT => 5007 | .CANCEL => 5008
  | .LEFT => 5009 | .RIGHT => 5010 | .UP => 5011 | .DOWN => 5012
  | .INSERT => 5013 | .DELETE => 5014 | .HOME => 5015 | .END => 5016 | .PAGE_UP => 5017
  | .PAGE_DOWN => 5018
  | .F n => 6000 + n
  | .KPADD => 5019 | .KPSUBTRACT => 5020 | .KPMULTIPLY => 5021 | .KPDIVIDE => 5022
  | .KPENTER => 5023
  | .KP n => 7000 + n
  | .KPDEC => 5024

/-- The environment `env_sample` with `lookup_key` reading `keysym_map` through the sample
key values. -/
def env_keys_sample : env :=
  { env_sample with lookup_key := lookup_key gp_code_sample mp_code_sample true }

/-- A key event of `env_keys_sample`: the escape key (no character payload), with event
code `code` (0 is a release, 1 a press, 2 a repeat). -/
def ev_esc_sample (code : Nat) : gp_event :=
  { type := 1, code := code, key := 1, utf := 0, sys_w := 0, sys_h := 0, cursor_x := 0,
    cursor_y := 0 }

/-- A key event of `env_keys_sample`: the key `a` with character payload `'a'`, with event
code `code`. -/
def ev_a_sample (code : Nat) : gp_event :=
  { type := 1, code := code, key := 30, utf := 97, sys_w := 0, sys_h := 0, cursor_x := 0,
    cursor_y := 0 }

/-! ## Initialisation: `preinit` -/

/-- Modelled from the spec: the pixel encodings `gp_pixel_type` of the graphics library
(1/2/4/8-bit grayscale, 16-bit grayscale, packed RGB variants), whose declaration is not
part of this file.  The constructors are the encodings that `preinit` and `draw_frame` name;
`other n` stands for every encoding they do not name. -/
inductive gp_pixel_type where
  | UNKNOWN
  | G1_UB | G1_DB | G2_UB | G2_DB | G4_UB | G4_DB | G8 | G16
  | xRGB8888 | RGB565_LE | RGB565_BE | RGB888
  | other (n : Nat)
  deriving DecidableEq

/-- The frame formats `IMGFMT_*` of the host player that `preinit` chooses from. -/
inductive imgfmt where
  | Y8 | Y16 | BGR0 | RGB565 | BGR24
  deriving DecidableEq

/-- The enumeration `enum osd_type`. -/
inductive osd_type where
  | OSD_TYPE_AUTO
  | OSD_TYPE_GFXPRIM
  | OSD_TYPE_MPV
  deriving DecidableEq

/-- The fields of `struct priv` that the `switch` of `preinit` sets. -/
structure preinit_priv where
  mpv_pixel_type : gp_pixel_type
  mpv_pixel_format : imgfmt
  osd : osd_type
  deriving DecidableEq

/-- The `switch (gp_backend_pixel_type(priv->backend))` of `preinit`, entered with
`mpv_pixel_type = GP_PIXEL_UNKNOWN` and `osd_type = OSD_TYPE_MPV` (every arm assigns the
pixel type and the frame format).  The flag `g16` tells whether `GP_PIXEL_G16` is defined
(the case under `#ifdef`). -/
def preinit_switch (g16 : Bool) (pt : gp_pixel_type) : preinit_priv :=
  match pt with
  | .G1_UB | .G1_DB | .G2_UB | .G2_DB | .G4_UB | .G4_DB | .G8 =>
    { mpv_pixel_type := .G8, mpv_pixel_format := .Y8, osd := .OSD_TYPE_GFXPRIM }
  | .G16 =>
    if g16 then { mpv_pixel_type := .G16, mpv_pixel_format := .Y16, osd := .OSD_TYPE_MPV }
    else { mpv_pixel_type := .RGB888, mpv_pixel_format := .BGR24, osd := .OSD_TYPE_MPV }
  | .xRGB8888 =>
    { mpv_pixel_type := .xRGB8888, mpv_pixel_format := .BGR0, osd := .OSD_TYPE_MPV }
  | .RGB565_LE | .RGB565_BE =>
    { mpv_pixel_type := .RGB565_LE, mpv_pixel_format := .RGB565, osd := .OSD_TYPE_MPV }
  | _ => { mpv_pixel_type := .RGB888, mpv_pixel_format := .BGR24, osd := .OSD_TYPE_MPV }

/-- The result of `preinit`: the value returned, and the fields left in `priv` (`none` when
the function returns before setting them). -/
structure preinit_result where
  ret : Int
  priv : Option preinit_priv
  deriving DecidableEq

/-- The function `preinit`.  `backend` is `none` when `gp_backend_init` returns `NULL` and
`some pt` when it returns a backend whose pixel type is `pt`; `opt_osd` is the configured
`opts->osd_type`. -/
def preinit (backend : Option gp_pixel_type) (opt_osd : osd_type) (g16 : Bool) :
    preinit_result :=
  match backend with
  | none => { ret := -1, priv := none }                      -- if (!priv->backend) return -1;
  | some pt =>
    let sw := preinit_switch g16 pt
    -- if (opts->osd_type != OSD_TYPE_AUTO) priv->osd_type = opts->osd_type;
    let osd := if opt_osd ≠ .OSD_TYPE_AUTO then opt_osd else sw.osd
    -- return priv->mpv_pixel_type == GP_PIXEL_UNKNOWN;
    { ret := if sw.mpv_pixel_type = .UNKNOWN then 1 else 0, priv := some { sw with osd := osd } }

/-! ## Text drawing: `render_sub_text`, `render_osd_ass`, `render_osd_text` -/

/-- The three text styles held in `struct priv`. -/
inductive font_style where
  /-- the field `priv->osd_font` (regular) -/
  | osd_font
  /-- the field `priv->osd_bfont` (bold) -/
  | osd_bfont
  /-- the field `priv->sub_font` -/
  | sub_font
  deriving DecidableEq

/-- The two alignments passed to the text primitives. -/
inductive text_align where
  /-- the flags `GP_ALIGN_RIGHT | GP_VALIGN_BELOW` -/
  | right_below
  /-- the flags `GP_ALIGN_CENTER | GP_VALIGN_ABOVE` -/
  | center_above
  deriving DecidableEq

/-- A call `gp_text(out, font, x, y, align, fg, bg, str)` or
`gp_text_ext(out, font, x, y, align, fg, bg, str, len)`; `str` holds the bytes handed over
(the first `len` bytes at the pointer for `gp_text_ext`). -/
structure text_op where
  font : font_style
  x : Int
  y : Int
  align : text_align
  fg : color
  bg : color
  str : List Nat
  deriving DecidableEq

/-- The font metrics that the renderers obtain from the graphics library. -/
structure metrics where
  /-- the value `gp_text_height(&priv->osd_font)` -/
  osd_h : Nat
  /-- the value `gp_text_avg_width(&priv->osd_font, 1)` -/
  osd_avg_w : Nat
  /-- the value `gp_text_height(&priv->sub_font)` -/
  sub_h : Nat
  /-- the width returned by `gp_text_ext` for the given style and bytes -/
  width : font_style → List Nat → Nat

/-- The two-pass drawing of one subtitle line `str` at `(x, y)`: shadow at `(x+1, y+1)`,
then the text at `(x, y)`. -/
def sub_line_ops (x y : Int) (str : List Nat) : List text_op :=
  [ { font := .sub_font, x := x + 1, y := y + 1, align := .center_above, fg := .black,
      bg := .white, str := str },
    { font := .sub_font, x := x, y := y, align := .center_above, fg := .white, bg := .black,
      str := str } ]

/-- The loop `for (i = 0; i < 2; i++)` of `render_sub_text` over the entries `lines`
(`none` is `NULL`), with the running `y`. -/
def sub_draw_loop (text_h : Nat) (x : Int) : Int → List (Option (List Nat)) → List text_op
  | _, [] => []
  | _, none :: _ => []                                       -- if (!lines[i]) break;
  | y, some str :: rest => sub_line_ops x y str ++ sub_draw_loop text_h x (y + text_h) rest

/-- The drawing part of `render_sub_text` on a surface of `W × H` pixels with subtitle line
height `text_h`, for the lines recorded in `st`. -/
def render_sub_text_draw (W H text_h : Nat) (s : List Nat) (st : split_state) : List text_op :=
  let x : Int := ((W / 2 : Nat) : Int)
  let y : Int := (H : Int) - (if st.lines1.isSome then 2 * text_h else text_h : Nat)
  sub_draw_loop text_h x y
    [ some (s.take st.len0), st.lines1.map fun p => (s.drop p).take st.len1 ]

/-- The function `render_sub_text`: the splitting loop, then the drawing loop. -/
def render_sub_text (W H text_h : Nat) (s : List Nat) : Except Fault (List text_op) :=
  match render_sub_text_split s with
  | .error e => .error e
  | .ok st => .ok (render_sub_text_draw W H text_h s st)

/-- The locals `x`, `y` of `render_osd_ass` and the drawing calls made so far. -/
structure osd_cursor where
  x : Int
  y : Int
  ops : List text_op
  deriving DecidableEq

/-- The body of the loop `while (next_text(&text))` of `render_osd_ass` for the token held
in `t`. -/
def render_osd_ass_body (M : metrics) (c : osd_cursor) (t : text) : osd_cursor :=
  let str := t.str.getD []
  if deref str = 92 then                                     -- if (text.str[0] == '\\')
    let d := deref str.tail                                  -- switch (text.str[1])
    if d = 78 then { c with y := c.y + M.osd_h, x := M.osd_h }        -- case 'N':
    else if d = 104 then { c with x := c.x + M.osd_avg_w }            -- case 'h':
    else c
  else
    let font : font_style := if t.bold then .osd_bfont else .osd_font
    let run := tok_bytes t
    { c with
      ops := c.ops ++
        [ { font := font, x := c.x + 1, y := c.y + 1, align := .right_below, fg := .black,
            bg := .white, str := run },
          { font := font, x := c.x, y := c.y, align := .right_below, fg := .white,
            bg := .black, str := run } ],
      x := c.x + M.width font run }

/-- The function `render_osd_ass`: the cursor and the drawing calls after the loop, and the
fault that ended the tokenizer, if any. -/
def render_osd_ass (M : metrics) (ass : List Nat) : osd_cursor × Option Fault :=
  ((tokens ass).1.foldl (render_osd_ass_body M) { x := M.osd_h, y := M.osd_h, ops := [] },
   (tokens ass).2)

/-- A token is a `\N` directive. -/
def is_newline_directive (t : text) : Bool :=
  decide (deref (t.str.getD []) = 92) && decide (deref (t.str.getD []).tail = 78)

/-- What `render_osd_text` leaves behind: the caller's buffer `buf` after the call (the
bytes of the string; when the write replaced the terminating NUL, `nul_overwritten` is set
and the written byte stands where the NUL was), the drawing calls whose string lies inside
the buffer, and the fault: that of the tokenizer on the formatted path, or the read past the
end of the buffer by `gp_text` once the terminating NUL is gone. -/
structure osd_text_result where
  buf : List Nat
  nul_overwritten : Bool
  ops : List text_op
  fault : Option Fault
  deriving DecidableEq

/-- The two `gp_text` calls at the end of `render_osd_text`. -/
def osd_plain_ops (M : metrics) (str : List Nat) : List text_op :=
  [ { font := .osd_font, x := M.osd_h + 1, y := M.osd_h + 1, align := .right_below,
      fg := .black, bg := .white, str := str },
    { font := .osd_font, x := M.osd_h, y := M.osd_h, align := .right_below, fg := .white,
      bg := .black, str := str } ]

/-- The glyph written by the icon escape for the icon code `code`; `OSD_PLAY` and
`OSD_PAUSE` are the icon codes of the host player. -/
def icon_glyph (OSD_PLAY OSD_PAUSE code : Nat) : Nat :=
  if code = OSD_PLAY then 62                                 -- '>'
  else if code = OSD_PAUSE then 34                           -- '"'
  else 32                                                    -- ' '

/-- The function `render_osd_text`; `osd_text` is `none` for `NULL`.  In the icon escape the
byte at `osd_text[1]` is written whatever it is; when it is the terminating NUL the string
handed to `gp_text` has no terminator left inside the buffer, and the two `gp_text` calls
read past its end. -/
def render_osd_text (M : metrics) (OSD_PLAY OSD_PAUSE : Nat) (osd_text : Option (List Nat)) :
    osd_text_result :=
  match osd_text with
  | none => { buf := [], nul_overwritten := false, ops := [], fault := none }
  | some s =>
    let c := deref s
    if c = 0xfd ∨ c = 0xfe then
      { buf := s, nul_overwritten := false, ops := (render_osd_ass M s).1.ops,
        fault := (render_osd_ass M s).2 }
    else if c = 0xff then
      -- osd_text++; switch (osd_text[0]) ... osd_text[0] = glyph;
      let p := s.tail
      let str := icon_glyph OSD_PLAY OSD_PAUSE (deref p) :: p.tail
      if deref p = 0 then
        { buf := 0xff :: str, nul_overwritten := true, ops := [], fault := some .oob }
      else
        { buf := 0xff :: str, nul_overwritten := false, ops := osd_plain_ops M str,
          fault := none }
    else
      { buf := s, nul_overwritten := false, ops := osd_plain_ops M s, fault := none }

/-- Sample font metrics: line heights 10 and 12, average glyph width 6, and a rendered
width of 6 pixels per byte. -/
def metrics_sample : metrics :=
  { osd_h := 10, osd_avg_w := 6, sub_h := 12, width := fun _ str => 6 * str.length }

/-! ## OSD dispatch of `draw_frame` -/

/-- The calls that `draw_frame` makes after the letterbox fills: the OSD of the host player
drawn on the scaled image, the blit through the dither filter, the direct blit, and the OSD
drawn by this driver on the output surface. -/
inductive draw_call where
  /-- the call `osd_draw_on_image(vo->osd, priv->osd, pts, 0, priv->resized_img)` -/
  | osd_draw_on_image
  /-- the calls `gp_filter_sierra_alloc`, `gp_blit_xywh(dither, ...)`, `gp_pixmap_free` -/
  | dither_blit
  /-- the call `gp_blit_xywh(&mpv_frame, ...)` -/
  | blit
  /-- the call `osd_draw_gfxprim(vo, frame, out)` -/
  | osd_draw_gfxprim
  deriving DecidableEq

/-- The `switch (out->pixel_type)` of `draw_frame`: the 1-, 2- and 4-bit grayscale surfaces
are blitted through the dither filter, every other surface directly. -/
def draw_frame_blit (out_pixel_type : gp_pixel_type) : draw_call :=
  match out_pixel_type with
  | .G1_UB | .G1_DB | .G2_UB | .G2_DB | .G4_UB | .G4_DB => .dither_blit
  | _ => .blit

/-- The end of `draw_frame`, from the test of `priv->osd_type` before the blit to the test
after it: the calls made, in order. -/
def draw_frame_calls (osd : osd_type) (out_pixel_type : gp_pixel_type) : List draw_call :=
  -- if (priv->osd_type == OSD_TYPE_MPV) osd_draw_on_image(...);
  (if osd = .OSD_TYPE_MPV then [.osd_draw_on_image] else []) ++
  -- switch (out->pixel_type) { ... }
  [draw_frame_blit out_pixel_type] ++
  -- if (priv->osd_type == OSD_TYPE_GFXPRIM) osd_draw_gfxprim(vo, frame, out);
  (if osd = .OSD_TYPE_GFXPRIM then [.osd_draw_gfxprim] else [])

/-! ## Reference layout of the formatted OSD text -/

/-- Reference layout step, written from the description of the escape-driven layout, for a
token given by its bytes and its bold flag: the newline directive `\N` sets `x` back to the
line height and adds the line height to `y`; the indent directive `\h` adds one average glyph
width to `x`; any other token that starts with a backslash has no effect; a literal run is
drawn as shadow at `(x + 1, y + 1)` and then as text at `(x, y)`, in the bold style exactly
when its flag is set, and `x` advances by the rendered width of the run. -/
def spec_osd_layout_step (M : metrics) (c : osd_cursor) (tok : List Nat × Bool) : osd_cursor :=
  if tok.1 = [92, 78] then { x := M.osd_h, y := c.y + M.osd_h, ops := c.ops }
  else if tok.1 = [92, 104] then { x := c.x + M.osd_avg_w, y := c.y, ops := c.ops }
  else if tok.1.head? = some 92 then c
  else
    { x := c.x + M.width (if tok.2 then .osd_bfont else .osd_font) tok.1,
      y := c.y,
      ops := c.ops ++
        [ { font := if tok.2 then .osd_bfont else .osd_font, x := c.x + 1, y := c.y + 1,
            align := .right_below, fg := .black, bg := .white, str := tok.1 },
          { font := if tok.2 then .osd_bfont else .osd_font, x := c.x, y := c.y,
            align := .right_below, fg := .white, bg := .black, str := tok.1 } ] }

/-- Reference layout of a token sequence: the cursor starts at `(lineHeight, lineHeight)`
and the tokens are laid out from left to right. -/
def spec_osd_layout (M : metrics) (toks : List (List Nat × Bool)) : osd_cursor :=
  toks.foldl (spec_osd_layout_step M) { x := M.osd_h, y := M.osd_h, ops := [] }

/-- Sample font metrics in which the bold style is wider than the regular one: line height
10, average glyph width 6, 6 pixels per byte in the regular and 7 in the bold style. -/
def metrics_bold_sample : metrics :=
  { osd_h := 10, osd_avg_w := 6, sub_h := 12,
    width := fun f str => (if f = .osd_bfont then 7 else 6) * str.length }

/-! # Theorems -/

/-! ## Statements about the parser that hold at a given input -/

/-- C1.  On the string `"{abc"`, whose group is not closed, the first `next_text` call
hands the group to `parse_fmt`, which reads the terminating NUL, steps over it and
dereferences the byte that follows: the call ends in an out-of-bounds read. -/
theorem next_text_unterminated_group_reads_past_nul :
    next_text (text_init (bytes "\x7babc")) = .error .oob ∧
    parse_fmt (text_init (bytes "\x7babc")) = .error .oob ∧
    tokens (bytes "\x7babc") = ([], some .oob) := by
  decide

/-- C2.  On the subtitle `"a\n\nb"` the splitter of `render_sub_text` hands `"a"` and then
`"\nb"` to the text renderer: the first byte of the second line is never examined, so the
second line contains the second newline and the byte after it.  Likewise a subtitle that
starts with a newline is rendered as one line that contains the newline.  The subtitle
`"line1\nline2\nline3"` is rendered as `"line1"` and `"line2"`. -/
theorem render_sub_text_lines_double_newline :
    render_sub_text_lines (bytes "a\n\nb") = .ok [bytes "a", bytes "\nb"] ∧
    render_sub_text_lines (bytes "\nabc") = .ok [bytes "\nabc"] ∧
    render_sub_text_lines (bytes "line1\nline2\nline3") = .ok [bytes "line1", bytes "line2"] := by
  decide

/-! ## Letterboxing -/

/-- C4, counterexample.  On a 4×4 surface with a 2×2 scaled frame the pixel `(0, 0)` lies in
two of the five rectangles (the top and the left border), not in exactly one. -/
theorem draw_frame_borders_overlap :
    cover_count 4 4 2 2 0 0 = 2 ∧
    ((border_rects 4 4 2 2).map fun r => r.contains 0 0) = [true, true, false, false] := by
  decide

theorem rect.contains_iff (r : rect) (px py : Nat) :
    r.contains px py = true ↔ r.x ≤ px ∧ px < r.x + r.w ∧ r.y ≤ py ∧ py < r.y + r.h := by
  simp [rect.contains, and_assoc]

theorem cover_aux (W H w h px py : Nat) (hw : w ≤ W) (hh : h ≤ H) (hx : px < W) (hy : py < H) :
    (([ ({ x := 0, y := 0, w := W, h := (H - h) / 2 } : rect),
       { x := 0, y := 0, w := (W - w) / 2, h := H },
       { x := 0, y := (H - h) / 2 + h, w := W, h := H - (H - h) / 2 - h },
       { x := (W - w) / 2 + w, y := 0, w := W - (W - w) / 2 - w, h := H },
       { x := (W - w) / 2, y := (H - h) / 2, w := w, h := h } ] : List rect).filter
         fun r => r.contains px py).length =
      (if ((W - w) / 2 ≤ px ∧ px < (W - w) / 2 + w) ∨ ((H - h) / 2 ≤ py ∧ py < (H - h) / 2 + h)
        then 1 else 2) := by
  simp only [List.filter_cons, List.filter_nil]
  split_ifs <;> simp only [rect.contains_iff] at * <;>
    simp only [List.length_cons, List.length_nil] <;> omega

/-- C4, amended.  For every surface size, scaled-frame size and surface pixel: the pixel
lies in exactly one of the five rectangles when its column meets the image columns or its
row meets the image rows, and in exactly two (both of them borders) otherwise, i.e. in the
four corner regions; and no border rectangle contains a pixel of the image rectangle. -/
theorem draw_frame_cover (W H fw fh px py : Nat) (hx : px < W) (hy : py < H) :
    cover_count W H fw fh px py =
      (if ((image_rect W H fw fh).x ≤ px ∧ px < (image_rect W H fw fh).x + (image_rect W H fw fh).w) ∨
          ((image_rect W H fw fh).y ≤ py ∧ py < (image_rect W H fw fh).y + (image_rect W H fw fh).h)
        then 1 else 2) ∧
    ((image_rect W H fw fh).contains px py = true →
      ∀ b ∈ border_rects W H fw fh, b.contains px py = false) := by
  have hw : min fw W ≤ W := Nat.min_le_right _ _
  have hh : min fh H ≤ H := Nat.min_le_right _ _
  constructor
  · exact cover_aux W H (min fw W) (min fh H) px py hw hh hx hy
  · intro hi b hb
    rw [rect.contains_iff] at hi
    rw [Bool.eq_false_iff, Ne, rect.contains_iff]
    simp only [image_rect] at hi
    simp only [border_rects, image_rect, List.mem_cons, List.mem_singleton, List.not_mem_nil,
      or_false] at hb
    rcases hb with rfl | rfl | rfl | rfl <;> simp only <;> omega

/-- Witness of `draw_frame_cover`: the pixel `(1, 0)` of a 4×4 surface with a 2×2 frame. -/
theorem draw_frame_cover_witness :
    (1 < 4 ∧ 0 < 4) ∧
    (cover_count 4 4 2 2 1 0 =
      (if ((image_rect 4 4 2 2).x ≤ 1 ∧ 1 < (image_rect 4 4 2 2).x + (image_rect 4 4 2 2).w) ∨
          ((image_rect 4 4 2 2).y ≤ 0 ∧ 0 < (image_rect 4 4 2 2).y + (image_rect 4 4 2 2).h)
        then 1 else 2) ∧
    ((image_rect 4 4 2 2).contains 1 0 = true →
      ∀ b ∈ border_rects 4 4 2 2, b.contains 1 0 = false)) :=
  ⟨by decide, draw_frame_cover 4 4 2 2 1 0 (by decide) (by decide)⟩

/-! ## The event loop -/

/-- C10.  A polled event of type `GP_EV_SYS` with code `GP_EV_SYS_QUIT` makes the loop body
perform exactly one action, `mp_input_put_key(MP_KEY_CLOSE_WIN)`, without returning; hence
in `wait_events` it contributes that single action, and all other actions of the call are
exactly those of the rest of the queue. -/
theorem wait_events_quit (K : env) (ev : gp_event) (queue : List gp_event)
    (ht : ev.type = K.GP_EV_SYS) (hc : ev.code = K.GP_EV_SYS_QUIT) :
    handle_event K ev = ([action.put_key K.MP_KEY_CLOSE_WIN], false) ∧
    wait_events K [ev] = ([action.put_key K.MP_KEY_CLOSE_WIN], []) ∧
    wait_events K (ev :: queue) =
      (action.put_key K.MP_KEY_CLOSE_WIN :: (wait_events K queue).1, (wait_events K queue).2) := by
  have h : handle_event K ev = ([action.put_key K.MP_KEY_CLOSE_WIN], false) := by
    simp [handle_event, ht, hc]
  refine ⟨h, ?_, ?_⟩ <;> simp [wait_events, h]

/-- Witness of `wait_events_quit`: a quit event alone in the queue, with the constants of
`env_sample`. -/
theorem wait_events_quit_witness :
    (ev_quit_sample.type = env_sample.GP_EV_SYS ∧
      ev_quit_sample.code = env_sample.GP_EV_SYS_QUIT) ∧
    (handle_event env_sample ev_quit_sample =
        ([action.put_key env_sample.MP_KEY_CLOSE_WIN], false) ∧
      wait_events env_sample [ev_quit_sample] =
        ([action.put_key env_sample.MP_KEY_CLOSE_WIN], []) ∧
      wait_events env_sample (ev_quit_sample :: []) =
        (action.put_key env_sample.MP_KEY_CLOSE_WIN :: (wait_events env_sample []).1,
          (wait_events env_sample []).2)) :=
  ⟨⟨rfl, rfl⟩, wait_events_quit env_sample ev_quit_sample [] rfl rfl⟩

/-! ## The group scanner `parse_fmt` -/

theorem lbd_cons_ne (c : Nat) (l : List Nat) (h : c ≠ 92) :
    lastBoldDigit (c :: l) = lastBoldDigit l := by
  simp only [lastBoldDigit]
  cases lastBoldDigit l <;> simp [h]

theorem lbd_92_cons (d : Nat) (l : List Nat) (h : d ≠ 98) :
    lastBoldDigit (92 :: d :: l) = lastBoldDigit (d :: l) := by
  rw [lastBoldDigit]
  cases lastBoldDigit (d :: l) <;> simp [h]

theorem lbd_92_98_cons (e : Nat) (l : List Nat) (h0 : e ≠ 48) (h1 : e ≠ 49) :
    lastBoldDigit (92 :: 98 :: e :: l) = lastBoldDigit (e :: l) := by
  rw [lastBoldDigit, lbd_cons_ne 98 _ (by decide)]
  cases lastBoldDigit (e :: l) <;> simp [h0, h1]

theorem lbd_92_98_48 (l : List Nat) :
    lastBoldDigit (92 :: 98 :: 48 :: l) = some ((lastBoldDigit l).getD false) := by
  rw [lastBoldDigit, lbd_cons_ne 98 _ (by decide), lbd_cons_ne 48 _ (by decide)]
  cases lastBoldDigit l <;> simp

theorem lbd_92_98_49 (l : List Nat) :
    lastBoldDigit (92 :: 98 :: 49 :: l) = some ((lastBoldDigit l).getD true) := by
  rw [lastBoldDigit, lbd_cons_ne 98 _ (by decide), lbd_cons_ne 49 _ (by decide)]
  cases lastBoldDigit l <;> simp


theorem pfx_cases (st : Nat) :
    (st = 1 ∧ pfx st = [92]) ∨ (st = 2 ∧ pfx st = [92, 98]) ∨ (st ≠ 1 ∧ st ≠ 2 ∧ pfx st = []) := by
  unfold pfx
  by_cases h1 : st = 1
  · simp [h1]
  · by_cases h2 : st = 2
    · simp [h2]
    · simp [h1, h2]

theorem pfx_zero : pfx 0 = [] := rfl
theorem pfx_one : pfx 1 = [92] := rfl
theorem pfx_two : pfx 2 = [92, 98] := rfl

theorem mem_cons_ok (c : Nat) (g : List Nat) (h125 : c ≠ 125) (h0 : c ≠ 0)
    (hg : ∀ x ∈ g, x ≠ 125 ∧ x ≠ 0) : ∀ x ∈ c :: g, x ≠ 125 ∧ x ≠ 0 := by
  intro x hx
  rcases List.mem_cons.1 hx with rfl | hx
  · exact ⟨h125, h0⟩
  · exact hg x hx

theorem parse_fmt_loop_ok (l : List Nat) : ∀ (st : Nat) (b : Bool) (rest : List Nat) (b' : Bool),
    parse_fmt_loop l st b = .ok (rest, b') →
    ∃ g, l = g ++ 125 :: rest ∧ (∀ c ∈ g, c ≠ 125 ∧ c ≠ 0) ∧
      b' = (lastBoldDigit (pfx st ++ g)).getD b := by
  induction l with
  | nil => intro st b rest b' h; simp [parse_fmt_loop] at h
  | cons c l ih =>
    intro st b rest b' h
    rw [parse_fmt_loop] at h
    by_cases h0 : c = 0
    · simp [h0] at h
    by_cases h125 : c = 125
    · simp only [h0, h125, if_true, if_false] at h
      simp at h
      obtain ⟨rfl, rfl⟩ := h
      refine ⟨[], by simp [h125], by simp, ?_⟩
      rcases pfx_cases st with ⟨-, hp⟩ | ⟨-, hp⟩ | ⟨-, -, hp⟩ <;> rw [hp] <;> simp [lastBoldDigit]
    simp only [h0, h125, if_false] at h
    by_cases h92 : c = 92
    · subst h92
      simp only [if_true] at h
      obtain ⟨g, hl, hg, hb⟩ := ih _ _ _ _ h
      refine ⟨92 :: g, by simp [hl], mem_cons_ok _ _ h125 h0 hg, ?_⟩
      rw [hb, pfx_one]
      rcases pfx_cases st with ⟨-, hp⟩ | ⟨-, hp⟩ | ⟨-, -, hp⟩ <;> rw [hp] <;>
        simp [lbd_92_cons, lbd_92_98_cons]
    simp only [h92, if_false] at h
    by_cases h98 : c = 98
    · subst h98
      simp only [if_true] at h
      obtain ⟨g, hl, hg, hb⟩ := ih _ _ _ _ h
      refine ⟨98 :: g, by simp [hl], mem_cons_ok _ _ h125 h0 hg, ?_⟩
      rw [hb]
      rcases pfx_cases st with ⟨h1, hp⟩ | ⟨h1, hp⟩ | ⟨h1, h2, hp⟩ <;> rw [hp] <;>
        simp [*, pfx_zero, pfx_two, lbd_cons_ne, lbd_92_98_cons]
    simp only [h98, if_false] at h
    by_cases h48 : c = 48
    · subst h48
      simp only [if_true] at h
      obtain ⟨g, hl, hg, hb⟩ := ih _ _ _ _ h
      refine ⟨48 :: g, by simp [hl], mem_cons_ok _ _ h125 h0 hg, ?_⟩
      rw [hb, pfx_zero]
      rcases pfx_cases st with ⟨h1, hp⟩ | ⟨h1, hp⟩ | ⟨h1, h2, hp⟩ <;> rw [hp] <;>
        simp [*, lbd_cons_ne, lbd_92_cons, lbd_92_98_48]
    simp only [h48, if_false] at h
    by_cases h49 : c = 49
    · subst h49
      simp only [if_true] at h
      obtain ⟨g, hl, hg, hb⟩ := ih _ _ _ _ h
      refine ⟨49 :: g, by simp [hl], mem_cons_ok _ _ h125 h0 hg, ?_⟩
      rw [hb, pfx_zero]
      rcases pfx_cases st with ⟨h1, hp⟩ | ⟨h1, hp⟩ | ⟨h1, h2, hp⟩ <;> rw [hp] <;>
        simp [*, lbd_cons_ne, lbd_92_cons, lbd_92_98_49]
    simp only [h49, if_false] at h
    obtain ⟨g, hl, hg, hb⟩ := ih _ _ _ _ h
    refine ⟨c :: g, by simp [hl], mem_cons_ok _ _ h125 h0 hg, ?_⟩
    rw [hb, pfx_zero]
    rcases pfx_cases st with ⟨h1, hp⟩ | ⟨h1, hp⟩ | ⟨h1, h2, hp⟩ <;> rw [hp] <;>
      simp [lbd_cons_ne, lbd_92_cons, lbd_92_98_cons, h92, h98, h48, h49]

/-! ## The tokenizer `next_text` -/

theorem parse_fmt_ok (t t1 : text) (h : parse_fmt t = .ok t1) :
    ∃ g, t.ass = g ++ 125 :: t1.ass ∧ (∀ c ∈ g, c ≠ 125 ∧ c ≠ 0) ∧
      t1.bold = (lastBoldDigit g).getD t.bold ∧ t1.str = t.str ∧ t1.len = t.len := by
  unfold parse_fmt at h
  cases hp : parse_fmt_loop t.ass 0 t.bold with
  | error e => simp [hp] at h
  | ok v =>
    obtain ⟨rest, b'⟩ := v
    simp only [hp, Except.ok.injEq] at h
    obtain ⟨g, hl, hg, hb⟩ := parse_fmt_loop_ok _ _ _ _ _ hp
    subst h
    exact ⟨g, hl, hg, by simpa [pfx_zero] using hb, rfl, rfl⟩

theorem parse_fmt_length (t t1 : text) (h : parse_fmt t = .ok t1) :
    t1.ass.length < t.ass.length := by
  obtain ⟨g, hl, -⟩ := parse_fmt_ok t t1 h
  rw [hl]; simp; omega

theorem is_stop_iff (c : Nat) :
    is_stop c ↔ c = 0xfe ∨ c = 0xfd ∨ c = 0 ∨ c = 123 ∨ c = 92 := Iff.rfl

/-- Every string splits into its longest prefix of plain bytes and a rest that starts with
a stop byte (or is empty). -/
theorem plain_split (a : List Nat) :
    ∃ run rest, a = run ++ rest ∧ (∀ c ∈ run, ¬ is_stop c) ∧ is_stop (deref rest) := by
  induction a with
  | nil => exact ⟨[], [], rfl, by simp, by simp [is_stop, deref]⟩
  | cons c a ih =>
    by_cases hc : is_stop c
    · exact ⟨[], c :: a, rfl, by simp, by simpa [deref] using hc⟩
    · obtain ⟨run, rest, h1, h2, h3⟩ := ih
      refine ⟨c :: run, rest, by simp [h1], ?_, h3⟩
      intro x hx
      rcases List.mem_cons.1 hx with rfl | hx
      · exact hc
      · exact h2 x hx

/-- Once a literal run has been started (`str` is set), the loop walks over the plain bytes
and returns at the first stop byte. -/
theorem next_text_loop_lit (run : List Nat) : ∀ (n : Nat) (rest s : List Nat) (l : Nat) (b : Bool),
    (∀ c ∈ run, ¬ is_stop c) → is_stop (deref rest) → run.length < n →
    next_text_loop n { ass := run ++ rest, str := some s, len := l, bold := b } =
      .ok (true, { ass := rest, str := some s, len := s.length - rest.length, bold := b }) := by
  induction run with
  | nil =>
    intro n rest s l b _ hstop hn
    obtain ⟨m, rfl⟩ : ∃ m, n = m + 1 := ⟨n - 1, by simp at hn; omega⟩
    simp only [List.nil_append, next_text_loop, next_text_ret]
    rcases hstop with h | h | h | h | h <;> simp [h]
  | cons c run ih =>
    intro n rest s l b hrun hstop hn
    obtain ⟨m, rfl⟩ : ∃ m, n = m + 1 := ⟨n - 1, by simp at hn; omega⟩
    have hc : ¬ is_stop c := hrun c (List.mem_cons_self _ _)
    simp only [is_stop, not_or] at hc
    obtain ⟨h1, h2, h3, h4, h5⟩ := hc
    rw [next_text_loop]
    simp only [List.cons_append, deref, List.headD_cons, h1, h2, h3, h4, h5, or_self, if_false,
      Option.isNone_some, List.tail_cons]
    simpa [deref] using ih m rest s l b (fun x hx => hrun x (List.mem_cons_of_mem _ hx)) hstop
      (by simp at hn; omega)

/-! ## The reference flag `specBold` -/

theorem specBold_skip (c : Nat) (rest : List Nat) (b : Bool) (h1 : c ≠ 123) (h2 : c ≠ 92) :
    specBold (c :: rest) none b = specBold rest none b := by
  cases rest with
  | nil => simp [specBold, h1]
  | cons d rest => simp [specBold, h1, h2]

theorem specBold_dir (c : Nat) (rest : List Nat) (b : Bool) :
    specBold (92 :: c :: rest) none b = specBold rest none b := by
  simp [specBold]

theorem specBold_open (rest : List Nat) (b : Bool) :
    specBold (123 :: rest) none b = specBold rest (some []) b := by
  cases rest with
  | nil => simp [specBold]
  | cons d rest => simp [specBold]

theorem specBold_in_group (g : List Nat) : ∀ (acc rest : List Nat) (b : Bool),
    (∀ c ∈ g, c ≠ 125) →
    specBold (g ++ 125 :: rest) (some acc) b =
      specBold rest none ((lastBoldDigit (acc ++ g)).getD b) := by
  induction g with
  | nil => intro acc rest b _; simp [specBold]
  | cons c g ih =>
    intro acc rest b hg
    have hc : c ≠ 125 := hg c (List.mem_cons_self _ _)
    simp only [List.cons_append, specBold, hc, if_false]
    rw [ih _ _ _ (fun x hx => hg x (List.mem_cons_of_mem _ hx))]
    simp

theorem specBold_group (g rest : List Nat) (b : Bool) (hg : ∀ c ∈ g, c ≠ 125) :
    specBold (123 :: (g ++ 125 :: rest)) none b =
      specBold rest none ((lastBoldDigit g).getD b) := by
  rw [specBold_open, specBold_in_group g [] rest b hg]
  simp

/-- Passing over sentinels and closed groups composes. -/
theorem specBold_skipseq (sk : List Nat) (h : SkipSeq sk) : ∀ (tail : List Nat) (b : Bool),
    specBold (sk ++ tail) none b = specBold tail none (specBold sk none b) := by
  induction h with
  | nil => intro tail b; simp [specBold]
  | sentinel c sk hc _ ih =>
    intro tail b
    have h1 : c ≠ 123 := by rcases hc with rfl | rfl <;> decide
    have h2 : c ≠ 92 := by rcases hc with rfl | rfl <;> decide
    rw [List.cons_append, specBold_skip _ _ _ h1 h2, specBold_skip _ _ _ h1 h2, ih]
  | group g sk hg _ ih =>
    intro tail b
    have hg' : ∀ c ∈ g, c ≠ 125 := fun c hc => (hg c hc).1
    have e : 123 :: (g ++ 125 :: sk) ++ tail = 123 :: (g ++ 125 :: (sk ++ tail)) := by simp
    rw [e, specBold_group _ _ _ hg', specBold_group _ _ _ hg', ih]

theorem specBold_plain_run (run : List Nat) (h : ∀ c ∈ run, ¬ is_stop c) (X : List Nat) (b : Bool) :
    specBold (run ++ X) none b = specBold X none b := by
  induction run with
  | nil => rfl
  | cons c run ih =>
    have hc : ¬ is_stop c := h c (List.mem_cons_self _ _)
    simp only [is_stop, not_or] at hc
    rw [List.cons_append, specBold_skip _ _ _ hc.2.2.2.1 hc.2.2.2.2]
    exact ih (fun x hx => h x (List.mem_cons_of_mem _ hx))

/-- A token is a non-empty prefix of the bytes at its start, and it leaves the reference
flag unchanged, unless it is a backslash directly before the NUL. -/
theorem specBold_tok (s r : List Nat) (h : TokShape s r) :
    ∃ tok, s = tok ++ r ∧ tok ≠ [] ∧
      ((∀ (X : List Nat) (b : Bool), specBold (tok ++ X) none b = specBold X none b) ∨
        deref r = 0) := by
  rcases h with ⟨c, -, rfl⟩ | ⟨rfl, hr⟩ | ⟨run, hne, rfl, hrun, -⟩
  · exact ⟨[92, c], rfl, by simp, Or.inl fun X b => specBold_dir c X b⟩
  · exact ⟨[92], rfl, by simp, Or.inr hr⟩
  · exact ⟨run, rfl, hne, Or.inl fun X b => specBold_plain_run run hrun X b⟩
/-- The outcome of the loop of `next_text` entered with `str = NULL` and enough budget: the
bytes passed over are sentinels and closed groups, the flag is updated by the groups only,
and the token (if any) has one of the three shapes of `TokShape`. -/
theorem next_text_loop_spec (n : Nat) : ∀ (a : List Nat) (l : Nat) (b : Bool) (r : Bool) (t' : text),
    a.length < n →
    next_text_loop n { ass := a, str := none, len := l, bold := b } = .ok (r, t') →
    ∃ sk, SkipSeq sk ∧ t'.bold = specBold sk none b ∧
      (r = false → a = sk ++ t'.ass ∧ deref t'.ass = 0 ∧ t'.str = none ∧ t'.len = l) ∧
      (r = true → ∃ s, a = sk ++ s ∧ t'.str = some s ∧ t'.len = s.length - t'.ass.length ∧
        TokShape s t'.ass) := by
  induction n with
  | zero => intro a l b r t' hn; simp at hn
  | succ n ih =>
    intro a l b r t' hn h
    cases a with
    | nil =>
      simp [next_text_loop, deref] at h
      obtain ⟨rfl, rfl⟩ := h
      exact ⟨[], SkipSeq.nil, by simp [specBold], by simp [deref], by simp⟩
    | cons c a =>
      have hn' : a.length < n := by simpa using hn
      rw [next_text_loop] at h
      simp only [deref, List.headD_cons, List.tail_cons] at h
      by_cases hs : c = 0xfe ∨ c = 0xfd
      · simp only [hs, if_true] at h
        obtain ⟨sk, h1, h2, h3, h4⟩ := ih a l b r t' hn' h
        have c1 : c ≠ 123 := by rcases hs with rfl | rfl <;> decide
        have c2 : c ≠ 92 := by rcases hs with rfl | rfl <;> decide
        refine ⟨c :: sk, SkipSeq.sentinel c sk hs h1, ?_, ?_, ?_⟩
        · rw [h2, specBold_skip _ _ _ c1 c2]
        · intro hr
          obtain ⟨e1, e2, e3⟩ := h3 hr
          exact ⟨by simp [e1], e2, e3⟩
        · intro hr
          obtain ⟨s, e1, e2, e3, e4⟩ := h4 hr
          exact ⟨s, by simp [e1], e2, e3, e4⟩
      simp only [hs, if_false] at h
      by_cases h0 : c = 0
      · simp only [h0, if_true, Except.ok.injEq, Prod.mk.injEq] at h
        obtain ⟨rfl, rfl⟩ := h
        exact ⟨[], SkipSeq.nil, by simp [specBold], by simp [deref, h0], by simp⟩
      simp only [h0, if_false] at h
      by_cases h123 : c = 123
      · simp only [h123, if_true] at h
        cases hp : parse_fmt { ass := 123 :: a, str := none, len := l, bold := b } with
        | error e => simp [hp] at h
        | ok t1 =>
          simp only [hp] at h
          obtain ⟨g, e1, e2, e3, e4, e5⟩ := parse_fmt_ok _ _ hp
          simp only at e1 e3 e4 e5
          -- the group read by `parse_fmt` starts with the brace itself
          cases g with
          | nil => simp at e1
          | cons x g =>
            simp only [List.cons_append, List.cons.injEq] at e1
            obtain ⟨rfl, e1⟩ := e1
            have hg : ∀ c ∈ g, c ≠ 125 ∧ c ≠ 0 := fun c hc => e2 c (List.mem_cons_of_mem _ hc)
            have hlen : t1.ass.length < n := by
              have : a.length = g.length + 1 + t1.ass.length := by rw [e1]; simp; omega
              omega
            obtain ⟨ass1, str1, len1, bold1⟩ := t1
            simp only at e1 e3 e4 e5 hlen
            subst e4 e5
            obtain ⟨sk, k1, k2, k3, k4⟩ := ih ass1 _ bold1 r t' hlen h
            refine ⟨123 :: (g ++ 125 :: sk), SkipSeq.group g sk hg k1, ?_, ?_, ?_⟩
            · rw [specBold_group _ _ _ (fun c hc => (hg c hc).1), k2, e3,
                lbd_cons_ne _ _ (by decide)]
            · intro hr
              obtain ⟨q1, q2, q3⟩ := k3 hr
              refine ⟨?_, q2, q3⟩
              rw [h123, e1, q1]; simp
            · intro hr
              obtain ⟨s, q1, q2, q3, q4⟩ := k4 hr
              refine ⟨s, ?_, q2, q3, q4⟩
              rw [h123, e1, q1]; simp
      simp only [h123, if_false] at h
      by_cases h92 : c = 92
      · simp only [h92, if_true, next_text_ret, List.tail_cons] at h
        by_cases hd : a.headD 0 = 0
        · simp only [hd, if_true, Except.ok.injEq, Prod.mk.injEq] at h
          obtain ⟨rfl, rfl⟩ := h
          refine ⟨[], SkipSeq.nil, by simp [specBold], ?_, ?_⟩
          · simp
          intro _
          exact ⟨92 :: a, by simp [h92], rfl, rfl, Or.inr (Or.inl ⟨rfl, hd⟩)⟩
        · simp only [hd, if_false, Except.ok.injEq, Prod.mk.injEq] at h
          obtain ⟨rfl, rfl⟩ := h
          refine ⟨[], SkipSeq.nil, by simp [specBold], by simp, ?_⟩
          intro _
          cases a with
          | nil => simp at hd
          | cons d a =>
            exact ⟨92 :: d :: a, by simp [h92], rfl, rfl,
              Or.inl ⟨d, by simpa using hd, rfl⟩⟩
      simp only [h92, if_false, Option.isNone_none, if_true, List.tail_cons] at h
      obtain ⟨run, rest, e1, e2, e3⟩ := plain_split a
      have hlit := next_text_loop_lit run n rest (c :: a) l b e2 e3
        (by rw [e1] at hn'; simp at hn'; omega)
      rw [← e1] at hlit
      rw [hlit] at h
      simp only [Except.ok.injEq, Prod.mk.injEq] at h
      obtain ⟨rfl, rfl⟩ := h
      refine ⟨[], SkipSeq.nil, by simp [specBold], by simp, ?_⟩
      intro _
      refine ⟨c :: a, by simp, rfl, rfl, Or.inr (Or.inr ⟨c :: run, by simp, by simp [e1], ?_, e3⟩)⟩
      intro x hx
      rcases List.mem_cons.1 hx with rfl | hx
      · simp only [is_stop, not_or]
        exact ⟨fun h => hs (Or.inl h), fun h => hs (Or.inr h), h0, h123, h92⟩
      · exact e2 x hx
theorem next_text_spec (t : text) (r : Bool) (t' : text) (h : next_text t = .ok (r, t')) :
    ∃ sk, SkipSeq sk ∧ t'.bold = specBold sk none t.bold ∧
      (r = false → t.ass = sk ++ t'.ass ∧ deref t'.ass = 0 ∧ t'.str = none) ∧
      (r = true → ∃ s, t.ass = sk ++ s ∧ t'.str = some s ∧ t'.len = s.length - t'.ass.length ∧
        TokShape s t'.ass) := by
  obtain ⟨sk, h1, h2, h3, h4⟩ :=
    next_text_loop_spec (t.ass.length + 1) t.ass t.len t.bold r t' (Nat.lt_succ_self _) h
  exact ⟨sk, h1, h2, fun hr => ⟨(h3 hr).1, (h3 hr).2.1, (h3 hr).2.2.1⟩, h4⟩

theorem skipseq_head (sk : List Nat) (h : SkipSeq sk) :
    sk = [] ∨ deref sk = 0xfe ∨ deref sk = 0xfd ∨ deref sk = 123 := by
  cases h with
  | nil => exact Or.inl rfl
  | sentinel c sk hc _ =>
    rcases hc with rfl | rfl
    · exact Or.inr (Or.inl rfl)
    · exact Or.inr (Or.inr (Or.inl rfl))
  | group g sk _ _ => exact Or.inr (Or.inr (Or.inr rfl))

theorem tokshape_head (s r : List Nat) (h : TokShape s r) : deref s ≠ 0 := by
  rcases h with ⟨c, -, rfl⟩ | ⟨rfl, -⟩ | ⟨run, hne, rfl, hrun, -⟩
  · simp [deref]
  · simp [deref]
  · cases run with
    | nil => exact absurd rfl hne
    | cons c run =>
      have hc : ¬ is_stop c := hrun c (List.mem_cons_self _ _)
      simp only [is_stop, not_or] at hc
      simpa [deref] using hc.2.2.1

/-- A call at the end of the string returns 0. -/
theorem next_text_at_nul (t : text) (t' : text) (h0 : deref t.ass = 0) :
    next_text t ≠ .ok (true, t') := by
  intro h
  obtain ⟨sk, h1, -, -, h4⟩ := next_text_spec t true t' h
  obtain ⟨s, e1, -, -, e4⟩ := h4 rfl
  have hs := tokshape_head s _ e4
  rcases skipseq_head sk h1 with rfl | hk | hk | hk
  · simp only [List.nil_append] at e1
    rw [e1] at h0; exact hs h0
  all_goals
    cases sk with
    | nil => simp [deref] at hk
    | cons x sk =>
      rw [e1] at h0
      simp only [deref, List.cons_append, List.headD_cons] at h0 hk
      omega

theorem before_append (Q str : List Nat) : before (Q ++ str) str = Q := by
  simp [before]

/-- The flag of every token of a run is the reference flag of the bytes before the token. -/
theorem tokens_loop_bold (s : List Nat) (n : Nat) : ∀ (P : List Nat) (t : text),
    s = P ++ t.ass →
    ((∀ X, specBold (P ++ X) none false = specBold X none t.bold) ∨ deref t.ass = 0) →
    ∀ t' ∈ (tokens_loop n t).1, ∃ str Q, t'.str = some str ∧ s = Q ++ str ∧
      t'.bold = specBold Q none false := by
  induction n with
  | zero => intro P t _ _ t' ht'; simp [tokens_loop] at ht'
  | succ n ih =>
    intro P t hs hinv t' ht'
    rw [tokens_loop] at ht'
    cases hnt : next_text t with
    | error e => simp [hnt] at ht'
    | ok v =>
      obtain ⟨r, t1⟩ := v
      cases r with
      | false => simp [hnt] at ht'
      | true =>
        simp only [hnt, List.mem_cons] at ht'
        obtain ⟨sk, h1, h2, -, h4⟩ := next_text_spec t true t1 hnt
        obtain ⟨str, e1, e2, e3, e4⟩ := h4 rfl
        have hcomp : ∀ X, specBold (P ++ X) none false = specBold X none t.bold := by
          rcases hinv with h | h
          · exact h
          · exact absurd hnt (next_text_at_nul t t1 h)
        have hb1 : t1.bold = specBold (P ++ sk) none false := by
          rw [hcomp sk, h2]
        rcases ht' with rfl | ht'
        · exact ⟨str, P ++ sk, e2, by rw [hs, e1]; simp, hb1⟩
        · obtain ⟨tok, k1, -, k3⟩ := specBold_tok str t1.ass e4
          refine ih (P ++ sk ++ tok) t1 (by rw [hs, e1, k1]; simp) ?_ t' ht'
          rcases k3 with k3 | k3
          · left
            intro X
            rw [List.append_assoc, List.append_assoc, hcomp,
              specBold_skipseq sk h1, k3, h2]
          · exact Or.inr k3

/-! ## The claims about the token stream -/

/-- C6.  Bold state persists across tokens.  For every string `s`, every token returned
while tokenizing `s` carries the flag that the reference description `specBold` assigns to
the bytes of `s` before the token: the digit of the most recent `\b0` / `\b1` inside a
preceding `{...}` group, `false` when there is none.  A single call changes the flag only
through the groups it passes over before the token, so a call whose token starts at the
read position returns the flag it was given.  On `"{\b1}A{\b0}B"` the tokens are `"A"` with
bold set and `"B"` with bold clear. -/
theorem bold_persists_across_tokens (s : List Nat) :
    (∀ t ∈ (tokens s).1, ∃ str, t.str = some str ∧
      t.bold = specBold (before s str) none false) ∧
    (∀ (t t' : text), next_text t = .ok (true, t') →
      ∃ str, t'.str = some str ∧ t'.bold = specBold (before t.ass str) none t.bold ∧
        (str = t.ass → t'.bold = t.bold)) ∧
    tokens_view (bytes "\x7b\\b1\x7dA\x7b\\b0\x7dB") =
      ([(bytes "A", true), (bytes "B", false)], none) := by
  refine ⟨?_, ?_, by decide⟩
  · intro t ht
    obtain ⟨str, Q, h1, h2, h3⟩ :=
      tokens_loop_bold s (s.length + 1) [] (text_init s) rfl (Or.inl fun X => rfl) t ht
    refine ⟨str, h1, ?_⟩
    rw [h3, h2, before_append]
  · intro t t' h
    obtain ⟨sk, h1, h2, -, h4⟩ := next_text_spec t true t' h
    obtain ⟨str, e1, e2, -, -⟩ := h4 rfl
    refine ⟨str, e2, ?_, ?_⟩
    · rw [e1, before_append, h2]
    · intro hstr
      have : sk = [] := by
        have := congrArg List.length e1
        rw [← hstr] at this
        simp at this
        exact this
      rw [h2, this]; rfl

/-- Witness of `bold_persists_across_tokens`: the token `"A"` of `"{\b1}A{\b0}B"`, returned
with the flag set. -/
theorem bold_persists_across_tokens_witness :
    ∃ str, ({ ass := bytes "\x7b\\b0\x7dB", str := some (bytes "A\x7b\\b0\x7dB"), len := 1,
              bold := true } : text).str = some str ∧
      true = specBold (before (bytes "\x7b\\b1\x7dA\x7b\\b0\x7dB") str) none false :=
  (bold_persists_across_tokens (bytes "\x7b\\b1\x7dA\x7b\\b0\x7dB")).1
    { ass := bytes "\x7b\\b0\x7dB", str := some (bytes "A\x7b\\b0\x7dB"), len := 1, bold := true }
    (by decide)

/-- C7, counterexample.  On the string made of a single backslash `next_text` returns 1
with a token that begins with the backslash and has length 1. -/
theorem next_text_lone_backslash_token :
    next_text (text_init (bytes "\\")) =
      .ok (true, { ass := [], str := some (bytes "\\"), len := 1, bold := false }) ∧
    tokens_view (bytes "\\") = ([(bytes "\\", false)], none) := by
  decide

/-- C7, amended.  Every token returned by `next_text` that begins with a backslash consists
of the backslash and the byte after it (length 2), except when the backslash is directly
followed by the terminating NUL: then the token is the backslash alone (length 1) and the
read position is left at the NUL. -/
theorem next_text_directive_length (t t' : text) (str : List Nat)
    (h : next_text t = .ok (true, t')) (hstr : t'.str = some str) (hb : deref str = 92) :
    (t'.len = 2 ∧ ∃ c, c ≠ 0 ∧ str = 92 :: c :: t'.ass) ∨
    (t'.len = 1 ∧ str = 92 :: t'.ass ∧ deref t'.ass = 0) := by
  obtain ⟨sk, -, -, -, h4⟩ := next_text_spec t true t' h
  obtain ⟨s, -, e2, e3, e4⟩ := h4 rfl
  rw [hstr] at e2
  obtain rfl : str = s := by simpa using e2
  rcases e4 with ⟨c, hc, rfl⟩ | ⟨rfl, hr⟩ | ⟨run, hne, rfl, hrun, -⟩
  · left
    exact ⟨by rw [e3]; simp only [List.length_cons]; omega, c, hc, rfl⟩
  · right
    exact ⟨by rw [e3]; simp only [List.length_cons]; omega, rfl, hr⟩
  · exfalso
    cases run with
    | nil => exact hne rfl
    | cons c run =>
      have hc : ¬ is_stop c := hrun c (List.mem_cons_self _ _)
      simp only [is_stop, not_or] at hc
      simp only [deref, List.cons_append, List.headD_cons] at hb
      exact hc.2.2.2.2 hb

/-- Witness of `next_text_directive_length`: the first call on the string `\N`. -/
theorem next_text_directive_length_witness :
    (next_text (text_init (bytes "\\N")) =
        .ok (true, { ass := [], str := some (bytes "\\N"), len := 2, bold := false }) ∧
      deref (bytes "\\N") = 92) ∧
    ((2 = 2 ∧ ∃ c, c ≠ 0 ∧ bytes "\\N" = 92 :: c :: []) ∨
     (2 = 1 ∧ bytes "\\N" = 92 :: [] ∧ deref [] = 0)) :=
  ⟨by decide,
   next_text_directive_length (text_init (bytes "\\N"))
    { ass := [], str := some (bytes "\\N"), len := 2, bold := false } (bytes "\\N")
    (by decide) rfl (by decide)⟩

/-- C8, counterexample.  On `"A"`, sentinel `0xFD`, `"B"` the sentinel ends the run `"A"`,
and the next call still produces the token `"B"` from the bytes after the sentinel. -/
theorem next_text_continues_after_sentinel :
    tokens_view (bytes "A\xfdB") = ([(bytes "A", false), (bytes "B", false)], none) := by
  decide

/-- C8, amended.  A sentinel byte met while a literal run is being accumulated ends the
run: the call returns the run as a token and leaves the read position at the sentinel.  The
sentinel is not an end of input: a call that starts at a sentinel passes over it and behaves
as the same call started at the byte after it. -/
theorem next_text_sentinel (run rest : List Nat) (c : Nat) (t : text)
    (hc : c = 0xfe ∨ c = 0xfd) (hne : run ≠ []) (hrun : ∀ x ∈ run, ¬ is_stop x) :
    next_text { t with ass := run ++ c :: rest } =
      .ok (true, { ass := c :: rest, str := some (run ++ c :: rest), len := run.length,
                   bold := t.bold }) ∧
    next_text { t with ass := c :: rest } = next_text { t with ass := rest } := by
  constructor
  · cases run with
    | nil => exact absurd rfl hne
    | cons x run =>
      have hx : ¬ is_stop x := hrun x (List.mem_cons_self _ _)
      simp only [is_stop, not_or] at hx
      obtain ⟨x1, x2, x3, x4, x5⟩ := hx
      have hlit := next_text_loop_lit run ((run ++ c :: rest).length + 1) (c :: rest)
        (x :: (run ++ c :: rest)) t.len t.bold
        (fun y hy => hrun y (List.mem_cons_of_mem _ hy))
        (by rcases hc with rfl | rfl <;> simp [is_stop, deref]) (by simp; omega)
      simp only [next_text, List.cons_append, List.length_cons]
      rw [next_text_loop]
      simp only [deref, List.headD_cons, x1, x2, x3, x4, x5, or_self, if_false,
        Option.isNone_none, if_true, List.tail_cons]
      rw [hlit]
      simp only [List.length_cons, List.length_append, Except.ok.injEq, Prod.mk.injEq,
        text.mk.injEq, true_and, and_true]
      omega
  · simp only [next_text, List.length_cons]
    rw [next_text_loop]
    simp [deref, hc]

/-- Witness of `next_text_sentinel`: the run `"A"` before the sentinel `0xFD` and `"B"`. -/
theorem next_text_sentinel_witness :
    next_text { text_init [] with ass := bytes "A" ++ 0xfd :: bytes "B" } =
      .ok (true, { ass := 0xfd :: bytes "B", str := some (bytes "A" ++ 0xfd :: bytes "B"),
                   len := (bytes "A").length, bold := (text_init []).bold }) ∧
    next_text { text_init [] with ass := 0xfd :: bytes "B" } =
      next_text { text_init [] with ass := bytes "B" } :=
  next_text_sentinel (bytes "A") (bytes "B") 0xfd (text_init []) (Or.inr rfl) (by decide)
    (by decide)

/-! ## Strings without groups and sentinels -/

/-- The loop of `next_text` can only fail inside `parse_fmt`, that is, on a string that
contains a `'{'`. -/
theorem next_text_loop_total (n : Nat) : ∀ (a : List Nat) (l : Nat) (b : Bool),
    a.length < n → 123 ∉ a →
    ∃ r t', next_text_loop n { ass := a, str := none, len := l, bold := b } = .ok (r, t') := by
  induction n with
  | zero => intro a l b hn; simp at hn
  | succ n ih =>
    intro a l b hn h123
    cases a with
    | nil => exact ⟨false, ⟨[], none, l, b⟩, by simp [next_text_loop, deref]⟩
    | cons c a =>
      have hn' : a.length < n := by simpa using hn
      have hc : c ≠ 123 := fun h => h123 (by simp [h])
      have ha : 123 ∉ a := fun h => h123 (List.mem_cons_of_mem _ h)
      rw [next_text_loop]
      simp only [deref, List.headD_cons, List.tail_cons, hc, if_false]
      by_cases hs : c = 0xfe ∨ c = 0xfd
      · simp only [hs, if_true]
        exact ih a l b hn' ha
      simp only [hs, if_false]
      by_cases h0 : c = 0
      · exact ⟨false, ⟨c :: a, none, l, b⟩, by simp [h0]⟩
      simp only [h0, if_false]
      by_cases h92 : c = 92
      · simp only [h92, if_true, next_text_ret]
        split_ifs <;> exact ⟨true, _, rfl⟩
      simp only [h92, if_false, Option.isNone_none, if_true]
      obtain ⟨run, rest, e1, e2, e3⟩ := plain_split a
      have hlit := next_text_loop_lit run n rest (c :: a) l b e2 e3
        (by rw [e1] at hn'; simp at hn'; omega)
      rw [← e1] at hlit
      exact ⟨true, _, hlit⟩

/-- On a string without NUL, `'{'` and sentinel bytes the loop of `render_osd_ass` ends with
`next_text` returning 0, and the tokens split the string as described by
`WellTokenized`. -/
theorem tokens_loop_well_tokenized (n : Nat) : ∀ (t : text),
    (∀ c ∈ t.ass, c ≠ 0 ∧ c ≠ 123 ∧ c ≠ 0xfd ∧ c ≠ 0xfe) → t.ass.length < n →
    (tokens_loop n t).2 = none ∧ WellTokenized t.ass (tokens_loop n t).1 := by
  induction n with
  | zero => intro t _ hn; simp at hn
  | succ n ih =>
    intro t hb hn
    have h123 : 123 ∉ t.ass := fun h => (hb 123 h).2.1 rfl
    obtain ⟨r, t1, hnt⟩ := next_text_loop_total (t.ass.length + 1) t.ass t.len t.bold
      (Nat.lt_succ_self _) h123
    have hnt' : next_text t = .ok (r, t1) := hnt
    obtain ⟨sk, h1, -, h3, h4⟩ := next_text_spec t r t1 hnt'
    have hsk : ∀ rest, t.ass = sk ++ rest → sk = [] := by
      intro rest e
      rcases skipseq_head sk h1 with h | h | h | h
      · exact h
      all_goals
        cases sk with
        | nil => rfl
        | cons x sk =>
          exfalso
          have hx : x ∈ t.ass := by rw [e]; simp
          have := hb x hx
          simp only [deref, List.headD_cons] at h
          omega
    rw [tokens_loop, hnt']
    cases r with
    | false =>
      obtain ⟨e1, e2, -⟩ := h3 rfl
      have : sk = [] := hsk _ e1
      subst this
      simp only [List.nil_append] at e1
      refine ⟨rfl, ?_⟩
      cases hta : t.ass with
      | nil => simp [WellTokenized]
      | cons x a =>
        exfalso
        rw [← e1, hta] at e2
        have := hb x (by rw [hta]; simp)
        simp only [deref, List.headD_cons] at e2
        exact this.1 e2
    | true =>
      obtain ⟨s, e1, e2, e3, e4⟩ := h4 rfl
      have : sk = [] := hsk _ e1
      subst this
      simp only [List.nil_append] at e1
      subst e1
      obtain ⟨tok, k1, k2, -⟩ := specBold_tok t.ass t1.ass e4
      have hlen : t1.len = tok.length := by
        rw [e3]; conv_lhs => rw [k1]
        simp
      have hdrop : t.ass.drop t1.len = t1.ass := by
        rw [hlen]; conv_lhs => rw [k1]
        simp
      have htake : t.ass.take t1.len = tok := by
        rw [hlen]; conv_lhs => rw [k1]
        simp
      have hb1 : ∀ c ∈ t1.ass, c ≠ 0 ∧ c ≠ 123 ∧ c ≠ 0xfd ∧ c ≠ 0xfe := by
        intro c hc
        exact hb c (by rw [k1]; exact List.mem_append_right _ hc)
      have hn1 : t1.ass.length < n := by
        have h5 : t.ass.length = tok.length + t1.ass.length := by
          conv_lhs => rw [k1]
          simp
        have h6 : 0 < tok.length := List.length_pos.2 k2
        omega
      obtain ⟨i1, i2⟩ := ih t1 hb1 hn1
      refine ⟨i1, ?_⟩
      simp only [WellTokenized]
      refine ⟨e2, ?_, hdrop.symm, ?_, ?_⟩
      · rw [e3]; omega
      · rcases e4 with ⟨c, hc, q⟩ | ⟨q, hr⟩ | ⟨run, hne, q, hrun, hstop⟩
        · left
          exact ⟨c, by rw [q]; rfl, by rw [e3, q]; simp only [List.length_cons]; omega⟩
        · right; left
          have hnil : t1.ass = [] := by
            cases hta : t1.ass with
            | nil => rfl
            | cons x a =>
              exfalso
              rw [hta] at hr
              have := hb1 x (by rw [hta]; simp)
              simp only [deref, List.headD_cons] at hr
              exact this.1 hr
          exact ⟨by rw [q, hnil], by rw [e3, q]; simp only [List.length_cons]; omega⟩
        · right; right
          have htok : tok = run := by
            have := k1.symm.trans q
            exact List.append_cancel_right this
          refine ⟨by rw [hlen]; exact List.length_pos.2 k2, ?_, ?_⟩
          · rw [htake, htok]
            intro c hc h92
            exact hrun c hc (by simp [is_stop, h92])
          · rw [hdrop]
            cases hta : t1.ass with
            | nil => left; rfl
            | cons x a =>
              right
              rw [hta] at hstop
              have := hb1 x (by rw [hta]; simp)
              simp only [is_stop, deref, List.headD_cons] at hstop
              have hx : x = 92 := by omega
              simp [hx]
      · rw [hdrop]; exact i2

/-- The tokens of a well-tokenized string, concatenated in order, give the string back. -/
theorem well_tokenized_join (toks : List text) : ∀ (s : List Nat),
    WellTokenized s toks → (toks.map tok_bytes).flatten = s := by
  induction toks with
  | nil => intro s h; simpa [WellTokenized] using h.symm
  | cons t toks ih =>
    intro s h
    simp only [WellTokenized] at h
    obtain ⟨h1, -, -, -, h5⟩ := h
    simp only [List.map_cons, List.flatten_cons, tok_bytes, h1, Option.getD_some, ih _ h5]
    exact List.take_append_drop _ _

/-- C5, counterexample.  On the string `a\` (an `a` and a final backslash) the tokens are
`"a"` and then a token that begins with the backslash and has length 1: it is the backslash
alone, not the backslash and a following character. -/
theorem tokens_trailing_backslash :
    tokens_view (bytes "a\\") = ([(bytes "a", false), (bytes "\\", false)], none) ∧
    ((tokens (bytes "a\\")).1.map fun t => (deref (t.str.getD []), t.len)) = [(97, 1), (92, 1)] := by
  decide

/-- C5, amended.  For every string without `'{'` and sentinel bytes the tokenizer ends by
returning 0, and its tokens come out in input order and split the string without gaps
(`WellTokenized`): each token that begins with a backslash is the backslash and the byte
after it, or the backslash alone when it is the last byte of the string; every other token
is a non-empty run of bytes other than the backslash that extends to the next backslash or
to the end of the string; concatenated in order the tokens give the string back.  On
`\N\htext` the tokens are `\N`, `\h` and `text`. -/
theorem tokens_plain_string (s : List Nat)
    (h : ∀ c ∈ s, c ≠ 0 ∧ c ≠ 123 ∧ c ≠ 0xfd ∧ c ≠ 0xfe) :
    (tokens s).2 = none ∧ WellTokenized s (tokens s).1 ∧
    ((tokens s).1.map tok_bytes).flatten = s ∧
    tokens_view (bytes "\\N\\htext") =
      ([(bytes "\\N", false), (bytes "\\h", false), (bytes "text", false)], none) := by
  obtain ⟨h1, h2⟩ := tokens_loop_well_tokenized (s.length + 1) (text_init s) h (Nat.lt_succ_self _)
  exact ⟨h1, h2, well_tokenized_join _ _ h2, by decide⟩

/-- Witness of `tokens_plain_string`: the string `\N\htext`. -/
theorem tokens_plain_string_witness :
    (∀ c ∈ bytes "\\N\\htext", c ≠ 0 ∧ c ≠ 123 ∧ c ≠ 0xfd ∧ c ≠ 0xfe) ∧
    ((tokens (bytes "\\N\\htext")).2 = none ∧
      WellTokenized (bytes "\\N\\htext") (tokens (bytes "\\N\\htext")).1 ∧
      ((tokens (bytes "\\N\\htext")).1.map tok_bytes).flatten = bytes "\\N\\htext" ∧
      tokens_view (bytes "\\N\\htext") =
        ([(bytes "\\N", false), (bytes "\\h", false), (bytes "text", false)], none)) :=
  ⟨by decide, tokens_plain_string (bytes "\\N\\htext") (by decide)⟩

/-! ## Scaling and the progress bar: single-precision evaluation -/

set_option maxRecDepth 4000 in
/-- Sanity check of the rounding function on well-known values: 1/3 and 1/10 as `float`
(`0x3EAAAAAB`, `0x3DCCCCCD`), 1/10 as `double` (`0x3FB999999999999A`), and the two ties
`2^24 + 1` (rounded down to the even `2^24`) and `2^24 + 3` (rounded up to `2^24 + 4`). -/
theorem fl_known_values :
    (fl 24 1 3).num * 33554432 = 11184811 * (fl 24 1 3).den ∧
    (fl 24 1 10).num * 134217728 = 13421773 * (fl 24 1 10).den ∧
    (fl 53 1 10).num * 36028797018963968 = 3602879701896397 * (fl 53 1 10).den ∧
    (fl 24 16777217 1).trunc = 16777216 ∧
    (fl 24 16777219 1).trunc = 16777220 := by
  decide

set_option maxRecDepth 4000 in
/-- C3.  For a 854×480 frame on a 1024×768 surface `resize_buffers` computes a scaled buffer
of 1023×575 pixels: neither dimension equals the surface dimension.  The quotient
1024/854 rounded to `float` is below the exact quotient, so the product with 854 is below
1024 and is truncated to 1023.  (A 1920×1080 frame on a 1280×720 surface is scaled to
1280×720.) -/
theorem resize_buffers_no_dimension_fits :
    resize_buffers 854 480 1024 768 = some (1023, 575) ∧
    (to_float (double_div 1024 854)).lt ⟨1024, 854⟩ = true ∧
    resize_buffers 1920 1080 1280 720 = some (1280, 720) := by
  decide

set_option maxRecDepth 4000 in
/-- C9.  On a surface 84 pixels wide with an OSD line height of 10 (interior origin
`x = 10`, interior width `w = 64`) and `value` the largest `float` below 1, `render_progbar`
fills a rectangle of width 63 but draws the playhead at `x = 74`, not at `10 + 63`: the
single-precision sum of 10 and 63.999996 is rounded to 74 before it is truncated.  On the
same surface `value = 0` gives a fill of width 0 with the playhead at 10, `value = 1` a fill
of width 64 with the playhead at 74, and a stop at 0.5 a centre tick at `10 + 32`. -/
theorem render_progbar_playhead_past_fill :
    render_progbar 0 10 10 84 48 ⟨16777215, 16777216⟩ [] =
      some [ .rect_xywh 8 6 68 14 .white, .rect_xywh 9 7 66 12 .black,
             .rect_xywh 10 8 64 10 .white, .fill_rect_xywh 10 8 63 10 .white,
             .vline_xyh 74 8 10 .black ] ∧
    render_progbar 0 10 10 84 48 ⟨0, 1⟩ [⟨1, 2⟩] =
      some [ .rect_xywh 8 6 68 14 .white, .rect_xywh 9 7 66 12 .black,
             .rect_xywh 10 8 64 10 .white, .fill_rect_xywh 10 8 0 10 .white,
             .vline_xyh 10 8 10 .black,
             .vline_xyh 41 8 10 .white, .vline_xyh 42 8 10 .black, .vline_xyh 43 8 10 .white ] ∧
    render_progbar 0 10 10 84 48 ⟨1, 1⟩ [] =
      some [ .rect_xywh 8 6 68 14 .white, .rect_xywh 9 7 66 12 .black,
             .rect_xywh 10 8 64 10 .white, .fill_rect_xywh 10 8 64 10 .white,
             .vline_xyh 74 8 10 .black ] := by
  decide

set_option maxRecDepth 8000 in
/-- Values of `resize_buffers` off the usual path.  A frame of width 0 gives an infinite
first quotient, the minimum is the other quotient, and the buffer is 1 pixel wide; a frame of
height 0 gives a buffer 1 pixel high; with both dimensions 0 the product is a NaN, whose
conversion to `gp_size` has no result; and on a surface of `2^32 - 1` pixels the quotient
rounds to `2^32` as a `float`, which `gp_size` cannot hold. -/
theorem resize_buffers_edge_values :
    resize_buffers 0 480 1024 768 = some (1, 768) ∧
    resize_buffers 854 0 1024 768 = some (1023, 1) ∧
    resize_buffers 0 0 1024 768 = none ∧
    resize_buffers 1 1 4294967295 4294967295 = none := by
  decide

set_option maxRecDepth 8000 in
/-- Values of `render_progbar` on a surface narrower than two OSD line heights (19 pixels,
line height 10): the interior width is -1, passed as `4294967295` where a `gp_size` is
expected; with `value = 0.5` the fill is `(gp_size)(-0.5) = 0` wide and the playhead is at
`(gp_coord)9.5 = 9`; with `value = 1` the conversion of `-1.0` to `gp_size` has no
result. -/
theorem render_progbar_narrow_surface :
    render_progbar 0 10 10 19 48 ⟨1, 2⟩ [] =
      some [ .rect_xywh 8 6 3 14 .white, .rect_xywh 9 7 1 12 .black,
             .rect_xywh 10 8 4294967295 10 .white, .fill_rect_xywh 10 8 0 10 .white,
             .vline_xyh 9 8 10 .black ] ∧
    render_progbar 0 10 10 19 48 ⟨1, 1⟩ [] = none := by
  decide

/-! ## The iteration budgets are never used up -/

/-- The loop of `parse_fmt` has no budget: it ends on `'}'` or reads out of bounds. -/
theorem parse_fmt_loop_no_fuel (x : List Nat) : ∀ (st : Nat) (bb : Bool),
    parse_fmt_loop x st bb ≠ .error .fuel := by
  induction x with
  | nil => intro st bb; simp [parse_fmt_loop]
  | cons y x ihx =>
    intro st bb
    rw [parse_fmt_loop]
    split_ifs <;> first | exact ihx _ _ | simp

/-- With a budget above the number of bytes left, the loop of `next_text` does not run out
of budget, whatever the state it is entered in. -/
theorem next_text_loop_no_fuel (n : Nat) : ∀ (t : text), t.ass.length < n →
    next_text_loop n t ≠ .error .fuel := by
  induction n with
  | zero => intro t hn; simp at hn
  | succ n ih =>
    intro t hn
    obtain ⟨a, str, l, b⟩ := t
    cases a with
    | nil =>
      rw [next_text_loop]
      cases str <;> simp [deref, next_text_ret]
    | cons c a =>
      have hn' : a.length < n := by simpa using hn
      rw [next_text_loop]
      simp only [deref, List.headD_cons, List.tail_cons]
      by_cases hs : c = 0xfe ∨ c = 0xfd
      · simp only [hs, if_true]
        cases str with
        | none => exact ih _ hn'
        | some s => simp [next_text_ret]
      simp only [hs, if_false]
      by_cases h0 : c = 0
      · simp only [h0, if_true]
        cases str <;> simp [next_text_ret]
      simp only [h0, if_false]
      by_cases h123 : c = 123
      · simp only [h123, if_true]
        cases str with
        | some s => simp [next_text_ret]
        | none =>
          simp only
          cases hp : parse_fmt { ass := 123 :: a, str := none, len := l, bold := b } with
          | error e =>
            simp only
            unfold parse_fmt at hp
            cases hl : parse_fmt_loop (123 :: a) 0 b with
            | error e' =>
              simp only [hl] at hp
              have := parse_fmt_loop_no_fuel
              intro hcontra
              have he : e = Fault.fuel := by simpa using hcontra
              have he' : e' = e := by simpa using hp
              exact this _ _ _ (by rw [hl, he', he])
            | ok v => simp [hl] at hp
          | ok t1 =>
            simp only
            have := parse_fmt_length _ _ hp
            simp only [List.length_cons] at this
            exact ih t1 (by omega)
      simp only [h123, if_false]
      by_cases h92 : c = 92
      · simp only [h92, if_true]
        cases str with
        | some s => simp [next_text_ret]
        | none => simp only [next_text_ret]; split_ifs <;> simp
      simp only [h92, if_false]
      exact ih _ (by split_ifs <;> simpa using hn')

/-- The function `next_text` never runs out of budget. -/
theorem next_text_no_fuel (t : text) : next_text t ≠ .error .fuel :=
  next_text_loop_no_fuel _ _ (Nat.lt_succ_self _)

/-- A call that returns 1 moves the read position forward by at least one byte. -/
theorem next_text_progress (t t' : text) (h : next_text t = .ok (true, t')) :
    t'.ass.length < t.ass.length := by
  obtain ⟨sk, -, -, -, h4⟩ := next_text_spec t true t' h
  obtain ⟨s, e1, -, -, e4⟩ := h4 rfl
  obtain ⟨tok, k1, k2, -⟩ := specBold_tok s t'.ass e4
  have h6 : 0 < tok.length := List.length_pos.2 k2
  rw [e1, k1]
  simp only [List.length_append]
  omega

/-- With a budget above the number of bytes of the string, the loop of `render_osd_ass`
does not run out of budget. -/
theorem tokens_loop_no_fuel (n : Nat) : ∀ (t : text), t.ass.length < n →
    (tokens_loop n t).2 ≠ some .fuel := by
  induction n with
  | zero => intro t hn; simp at hn
  | succ n ih =>
    intro t hn
    rw [tokens_loop]
    cases hnt : next_text t with
    | error e =>
      simp only
      intro hcontra
      have he : e = Fault.fuel := by simpa using hcontra
      exact next_text_no_fuel t (by rw [hnt, he])
    | ok v =>
      obtain ⟨r, t1⟩ := v
      cases r with
      | false => simp
      | true =>
        simp only
        have := next_text_progress t t1 hnt
        exact ih t1 (by omega)

/-- The run `tokens` never runs out of budget: it ends when `next_text` returns 0 or
reads out of bounds. -/
theorem tokens_no_fuel (s : List Nat) : (tokens s).2 ≠ some .fuel :=
  tokens_loop_no_fuel _ _ (Nat.lt_succ_self _)

/-! ## The image rectangle and the borders -/

/-- C20.  For every surface size and every scaled-buffer size (also one larger than the
surface) the image rectangle of `draw_frame` lies inside the surface; the right margin is
the left margin or one pixel more, and the bottom margin is the top margin or one pixel
more; no border rectangle contains a pixel of the image rectangle; and every surface pixel
outside the image rectangle lies in at least one border rectangle. -/
theorem image_rect_centered (W H fw fh : Nat) :
    (image_rect W H fw fh).w = min fw W ∧ (image_rect W H fw fh).h = min fh H ∧
    (image_rect W H fw fh).x + (image_rect W H fw fh).w ≤ W ∧
    (image_rect W H fw fh).y + (image_rect W H fw fh).h ≤ H ∧
    ((image_rect W H fw fh).x ≤ W - (image_rect W H fw fh).x - (image_rect W H fw fh).w ∧
      W - (image_rect W H fw fh).x - (image_rect W H fw fh).w ≤ (image_rect W H fw fh).x + 1) ∧
    ((image_rect W H fw fh).y ≤ H - (image_rect W H fw fh).y - (image_rect W H fw fh).h ∧
      H - (image_rect W H fw fh).y - (image_rect W H fw fh).h ≤ (image_rect W H fw fh).y + 1) ∧
    (∀ px py : Nat, ∀ b ∈ border_rects W H fw fh,
      ¬ ((image_rect W H fw fh).contains px py = true ∧ b.contains px py = true)) ∧
    (∀ px py : Nat, px < W → py < H → (image_rect W H fw fh).contains px py = false →
      ∃ b ∈ border_rects W H fw fh, b.contains px py = true) := by
  have hw : min fw W ≤ W := Nat.min_le_right _ _
  have hh : min fh H ≤ H := Nat.min_le_right _ _
  refine ⟨rfl, rfl, ?_, ?_, ?_, ?_, ?_, ?_⟩
  · simp only [image_rect]; omega
  · simp only [image_rect]; omega
  · simp only [image_rect]; omega
  · simp only [image_rect]; omega
  · intro px py b hb ⟨hi, hc⟩
    rw [rect.contains_iff] at hi hc
    simp only [image_rect] at hi
    simp only [border_rects, image_rect, List.mem_cons, List.mem_singleton, List.not_mem_nil,
      or_false] at hb
    rcases hb with rfl | rfl | rfl | rfl <;> simp only at hc <;> omega
  · intro px py hx hy hi
    rw [Bool.eq_false_iff, Ne, rect.contains_iff] at hi
    simp only [image_rect] at hi
    simp only [border_rects, image_rect, List.mem_cons, List.mem_singleton, List.not_mem_nil,
      or_false, exists_eq_or_imp, exists_eq_left, rect.contains_iff]
    omega

/-! ## The subtitle splitter at the end of the string -/

/-- C19.  On the subtitle `"abc\n"`, which ends with a newline, the splitting loop of
`render_sub_text` starts the second line at the terminating NUL and, because of the
pre-increment, first reads the byte after it: the loop ends in an out-of-bounds read.  With
two consecutive newlines (`"a\n\nb"`, `"a\n\n"`) all reads stay inside the string. -/
theorem render_sub_text_split_trailing_newline :
    render_sub_text_split (bytes "abc\n") = .error .oob ∧
    render_sub_text_split (bytes "a\n\nb") =
      .ok { sub_text := 2, lines1 := some 2, len0 := 1, len1 := 2, i := 1, done := true } ∧
    render_sub_text_split (bytes "a\n\n") =
      .ok { sub_text := 2, lines1 := some 2, len0 := 1, len1 := 1, i := 1, done := true } := by
  decide

/-! ## Closed groups -/

/-- On a group body `g` without `'}'` and NUL that is followed by a `'}'`, the loop of
`parse_fmt` returns at that brace. -/
theorem parse_fmt_loop_closed (g : List Nat) : ∀ (rest : List Nat) (st : Nat) (b : Bool),
    (∀ c ∈ g, c ≠ 125 ∧ c ≠ 0) →
    parse_fmt_loop (g ++ 125 :: rest) st b = .ok (rest, (lastBoldDigit (pfx st ++ g)).getD b) := by
  intro rest st b hg
  have hex : ∀ (g : List Nat) (st : Nat) (b : Bool), (∀ c ∈ g, c ≠ 125 ∧ c ≠ 0) →
      ∃ b', parse_fmt_loop (g ++ 125 :: rest) st b = .ok (rest, b') := by
    intro g
    induction g with
    | nil => intro st b _; exact ⟨b, by simp [parse_fmt_loop]⟩
    | cons c g ih =>
      intro st b hg
      have hc := hg c (List.mem_cons_self _ _)
      have hg' : ∀ x ∈ g, x ≠ 125 ∧ x ≠ 0 := fun x hx => hg x (List.mem_cons_of_mem _ hx)
      rw [List.cons_append, parse_fmt_loop]
      simp only [hc.1, hc.2, if_false]
      split_ifs <;> exact ih _ _ hg'
  obtain ⟨b', hb'⟩ := hex g st b hg
  obtain ⟨g', e1, e2, e3⟩ := parse_fmt_loop_ok _ _ _ _ _ hb'
  have hgg : g' = g := by
    have hl : g'.length = g.length := by
      have := congrArg List.length e1
      simp only [List.length_append, List.length_cons] at this
      omega
    exact (List.append_inj e1.symm hl).1
  rw [hb', e3, hgg]

/-- On a closed group, `parse_fmt` returns just after the closing brace with the bold flag of
the last bold directive of the group. -/
theorem parse_fmt_closed (t : text) (g rest : List Nat)
    (hg : ∀ c ∈ g, c ≠ 125 ∧ c ≠ 0) (ht : t.ass = 123 :: (g ++ 125 :: rest)) :
    parse_fmt t = .ok { t with ass := rest, bold := (lastBoldDigit g).getD t.bold } := by
  have hg' : ∀ c ∈ 123 :: g, c ≠ 125 ∧ c ≠ 0 := mem_cons_ok 123 g (by decide) (by decide) hg
  have := parse_fmt_loop_closed (123 :: g) rest 0 t.bold hg'
  unfold parse_fmt
  rw [ht]
  rw [List.cons_append] at this
  rw [this, pfx_zero, List.nil_append, lbd_cons_ne _ _ (by decide)]

/-- C17.  For every group `'{' g '}'` whose body `g` contains no `'}'` (the brace after `g`
is the first one), `parse_fmt` returns with the read position just after that brace and
with the bold flag set to the digit of the last `\b0` / `\b1` in `g`; when `g` has no such
occurrence the flag is unchanged; the token fields are untouched, and the result depends on
`g` through `lastBoldDigit g` only. -/
theorem parse_fmt_closed_group (t : text) (g rest : List Nat)
    (hg : ∀ c ∈ g, c ≠ 125 ∧ c ≠ 0) (ht : t.ass = 123 :: (g ++ 125 :: rest)) :
    parse_fmt t = .ok { t with ass := rest, bold := (lastBoldDigit g).getD t.bold } ∧
    (lastBoldDigit g = none →
      parse_fmt t = .ok { t with ass := rest }) ∧
    (∀ d, lastBoldDigit g = some d →
      parse_fmt t = .ok { t with ass := rest, bold := d }) := by
  have h : parse_fmt t = .ok { t with ass := rest, bold := (lastBoldDigit g).getD t.bold } :=
    parse_fmt_closed t g rest hg ht
  refine ⟨h, ?_, ?_⟩
  · intro hn
    rw [h, hn]; rfl
  · intro d hd
    rw [h, hd]; rfl

/-- Witness of `parse_fmt_closed_group`: the group `{x\b1}` followed by `A`. -/
theorem parse_fmt_closed_group_witness :
    ((∀ c ∈ bytes "x\\b1", c ≠ 125 ∧ c ≠ 0) ∧
      (text_init (bytes "\x7bx\\b1\x7dA")).ass = 123 :: (bytes "x\\b1" ++ 125 :: bytes "A")) ∧
    (parse_fmt (text_init (bytes "\x7bx\\b1\x7dA")) =
        .ok { text_init (bytes "\x7bx\\b1\x7dA") with
              ass := bytes "A",
              bold := (lastBoldDigit (bytes "x\\b1")).getD (text_init (bytes "\x7bx\\b1\x7dA")).bold } ∧
      (lastBoldDigit (bytes "x\\b1") = none →
        parse_fmt (text_init (bytes "\x7bx\\b1\x7dA")) =
          .ok { text_init (bytes "\x7bx\\b1\x7dA") with ass := bytes "A" }) ∧
      (∀ d, lastBoldDigit (bytes "x\\b1") = some d →
        parse_fmt (text_init (bytes "\x7bx\\b1\x7dA")) =
          .ok { text_init (bytes "\x7bx\\b1\x7dA") with ass := bytes "A", bold := d })) :=
  ⟨by decide,
   parse_fmt_closed_group (text_init (bytes "\x7bx\\b1\x7dA")) (bytes "x\\b1") (bytes "A")
     (by decide) (by decide)⟩

theorem groups_closed_skip (c : Nat) (rest : List Nat) (h1 : c ≠ 123) (h2 : c ≠ 92) :
    groups_closed (c :: rest) false = groups_closed rest false := by
  cases rest with
  | nil => simp [groups_closed, h1]
  | cons d rest => simp [groups_closed, h1, h2]

theorem groups_closed_dir (c : Nat) (rest : List Nat) :
    groups_closed (92 :: c :: rest) false = groups_closed rest false := by
  simp [groups_closed]

theorem groups_closed_open (rest : List Nat) :
    groups_closed (123 :: rest) false = groups_closed rest true := by
  cases rest with
  | nil => simp [groups_closed]
  | cons d rest => simp [groups_closed]

theorem groups_closed_inside (l : List Nat) (h : groups_closed l true = true) :
    ∃ g rest, l = g ++ 125 :: rest ∧ (∀ c ∈ g, c ≠ 125) ∧ groups_closed rest false = true := by
  induction l with
  | nil => simp [groups_closed] at h
  | cons c l ih =>
    rw [groups_closed] at h
    by_cases hc : c = 125
    · simp only [hc, if_true] at h
      exact ⟨[], l, by simp [hc], by simp, h⟩
    · simp only [hc, if_false] at h
      obtain ⟨g, rest, e1, e2, e3⟩ := ih h
      refine ⟨c :: g, rest, by simp [e1], ?_, e3⟩
      intro x hx
      rcases List.mem_cons.1 hx with rfl | hx
      · exact hc
      · exact e2 x hx

theorem groups_closed_plain_run (run : List Nat) (h : ∀ c ∈ run, ¬ is_stop c) (X : List Nat) :
    groups_closed (run ++ X) false = groups_closed X false := by
  induction run with
  | nil => rfl
  | cons c run ih =>
    have hc : ¬ is_stop c := h c (List.mem_cons_self _ _)
    simp only [is_stop, not_or] at hc
    rw [List.cons_append, groups_closed_skip _ _ hc.2.2.2.1 hc.2.2.2.2]
    exact ih (fun x hx => h x (List.mem_cons_of_mem _ hx))

/-- On a string without NUL bytes in which every group is closed, the loop of `next_text`
returns, and what is left of the string has the same two properties. -/
theorem next_text_loop_closed (n : Nat) : ∀ (a : List Nat) (l : Nat) (b : Bool),
    a.length < n → (∀ c ∈ a, c ≠ 0) → groups_closed a false = true →
    ∃ r t', next_text_loop n { ass := a, str := none, len := l, bold := b } = .ok (r, t') ∧
      (∀ c ∈ t'.ass, c ≠ 0) ∧ groups_closed t'.ass false = true := by
  induction n with
  | zero => intro a l b hn; simp at hn
  | succ n ih =>
    intro a l b hn hz hcl
    cases a with
    | nil => exact ⟨false, ⟨[], none, l, b⟩, by simp [next_text_loop, deref], hz, hcl⟩
    | cons c a =>
      have hn' : a.length < n := by simpa using hn
      have h0 : c ≠ 0 := hz c (List.mem_cons_self _ _)
      have hz' : ∀ x ∈ a, x ≠ 0 := fun x hx => hz x (List.mem_cons_of_mem _ hx)
      rw [next_text_loop]
      simp only [deref, List.headD_cons, List.tail_cons, h0, if_false]
      by_cases hs : c = 0xfe ∨ c = 0xfd
      · simp only [hs, if_true]
        have c1 : c ≠ 123 := by rcases hs with rfl | rfl <;> decide
        have c2 : c ≠ 92 := by rcases hs with rfl | rfl <;> decide
        rw [groups_closed_skip _ _ c1 c2] at hcl
        exact ih a l b hn' hz' hcl
      simp only [hs, if_false]
      by_cases h123 : c = 123
      · subst h123
        simp only [if_true]
        rw [groups_closed_open] at hcl
        obtain ⟨g, rest, e1, e2, e3⟩ := groups_closed_inside a hcl
        have hg : ∀ x ∈ g, x ≠ 125 ∧ x ≠ 0 :=
          fun x hx => ⟨e2 x hx, hz' x (by rw [e1]; exact List.mem_append_left _ hx)⟩
        have hp := parse_fmt_closed { ass := 123 :: a, str := none, len := l, bold := b }
          g rest hg (by rw [e1])
        rw [hp]
        simp only
        have hrest : ∀ x ∈ rest, x ≠ 0 := fun x hx =>
          hz' x (by rw [e1]; exact List.mem_append_right _ (List.mem_cons_of_mem _ hx))
        have hlen : rest.length < n := by
          have : a.length = g.length + (rest.length + 1) := by rw [e1]; simp
          omega
        exact ih rest l _ hlen hrest e3
      simp only [h123, if_false]
      by_cases h92 : c = 92
      · subst h92
        simp only [if_true, next_text_ret]
        cases a with
        | nil =>
          exact ⟨true, ⟨[], some [92], 1, b⟩, by simp, by simp, by simp [groups_closed]⟩
        | cons d a =>
          have hd : d ≠ 0 := hz' d (List.mem_cons_self _ _)
          rw [groups_closed_dir] at hcl
          refine ⟨true, ⟨a, some (92 :: d :: a), 2, b⟩, ?_, ?_, hcl⟩
          · simp only [List.headD_cons, hd, if_false, List.tail_cons, List.length_cons,
              Except.ok.injEq, Prod.mk.injEq, text.mk.injEq, true_and, and_true]
            omega
          · exact fun x hx => hz' x (List.mem_cons_of_mem _ hx)
      simp only [h92, if_false, Option.isNone_none, if_true]
      obtain ⟨run, rest, e1, e2, e3⟩ := plain_split a
      have hlit := next_text_loop_lit run n rest (c :: a) l b e2 e3
        (by rw [e1] at hn'; simp at hn'; omega)
      rw [← e1] at hlit
      refine ⟨true, _, hlit, ?_, ?_⟩
      · exact fun x hx => hz' x (by rw [e1]; exact List.mem_append_right _ hx)
      · rw [groups_closed_skip _ _ h123 h92, e1, groups_closed_plain_run run e2] at hcl
        exact hcl

/-- A call that returns 1 yields a token of at least one byte that lies between the old
and the new read position. -/
theorem next_text_len_pos (t t' : text) (h : next_text t = .ok (true, t')) :
    1 ≤ t'.len ∧ t'.ass.length + t'.len ≤ t.ass.length := by
  obtain ⟨sk, -, -, -, h4⟩ := next_text_spec t true t' h
  obtain ⟨s, e1, -, e3, e4⟩ := h4 rfl
  obtain ⟨tok, k1, k2, -⟩ := specBold_tok s t'.ass e4
  have h6 : 0 < tok.length := List.length_pos.2 k2
  have h7 : s.length = tok.length + t'.ass.length := by rw [k1]; simp
  have h8 : t.ass.length = sk.length + s.length := by rw [e1]; simp
  omega

theorem tokens_loop_closed (n : Nat) : ∀ (t : text),
    t.ass.length < n → (∀ c ∈ t.ass, c ≠ 0) → groups_closed t.ass false = true →
    (tokens_loop n t).2 = none ∧ (tokens_loop n t).1.length ≤ t.ass.length ∧
      ∀ t' ∈ (tokens_loop n t).1, 1 ≤ t'.len := by
  induction n with
  | zero => intro t hn; simp at hn
  | succ n ih =>
    intro t hn hz hcl
    obtain ⟨r, t1, hnt, hz1, hcl1⟩ :=
      next_text_loop_closed (t.ass.length + 1) t.ass t.len t.bold (Nat.lt_succ_self _) hz hcl
    have hnt' : next_text t = .ok (r, t1) := hnt
    rw [tokens_loop, hnt']
    cases r with
    | false => simp
    | true =>
      simp only
      have hp := next_text_progress t t1 hnt'
      have hl := next_text_len_pos t t1 hnt'
      obtain ⟨i1, i2, i3⟩ := ih t1 (by omega) hz1 hcl1
      refine ⟨i1, by simp only [List.length_cons]; omega, ?_⟩
      intro t' ht'
      rcases List.mem_cons.1 ht' with rfl | ht'
      · exact hl.1
      · exact i3 t' ht'

/-- C18.  The token sequence is finite.  Every `next_text` call that returns 1 yields a
token of at least one byte and moves the read position forward by at least that many
bytes.  Hence, on a NUL-terminated string in which every group is closed, the loop of
`render_osd_ass` ends with `next_text` returning 0 (it neither reads out of bounds nor runs
out of budget) after at most as many tokens as the string has bytes. -/
theorem tokens_finite (s : List Nat) (hz : ∀ c ∈ s, c ≠ 0)
    (hcl : groups_closed s false = true) :
    (tokens s).2 = none ∧ (tokens s).1.length ≤ s.length ∧
    (∀ t ∈ (tokens s).1, 1 ≤ t.len) ∧
    (∀ (t t' : text), next_text t = .ok (true, t') →
      1 ≤ t'.len ∧ t'.ass.length + t'.len ≤ t.ass.length ∧ t'.ass.length < t.ass.length) := by
  obtain ⟨h1, h2, h3⟩ := tokens_loop_closed (s.length + 1) (text_init s) (Nat.lt_succ_self _) hz hcl
  refine ⟨h1, h2, h3, ?_⟩
  intro t t' h
  exact ⟨(next_text_len_pos t t' h).1, (next_text_len_pos t t' h).2, next_text_progress t t' h⟩

/-- Witness of `tokens_finite`: the string `{\b1}A\N{x}B`. -/
theorem tokens_finite_witness :
    ((∀ c ∈ bytes "\x7b\\b1\x7dA\\N\x7bx\x7dB", c ≠ 0) ∧
      groups_closed (bytes "\x7b\\b1\x7dA\\N\x7bx\x7dB") false = true) ∧
    ((tokens (bytes "\x7b\\b1\x7dA\\N\x7bx\x7dB")).2 = none ∧
      (tokens (bytes "\x7b\\b1\x7dA\\N\x7bx\x7dB")).1.length ≤
        (bytes "\x7b\\b1\x7dA\\N\x7bx\x7dB").length ∧
      (∀ t ∈ (tokens (bytes "\x7b\\b1\x7dA\\N\x7bx\x7dB")).1, 1 ≤ t.len) ∧
      (∀ (t t' : text), next_text t = .ok (true, t') →
        1 ≤ t'.len ∧ t'.ass.length + t'.len ≤ t.ass.length ∧ t'.ass.length < t.ass.length)) :=
  ⟨by decide, tokens_finite (bytes "\x7b\\b1\x7dA\\N\x7bx\x7dB") (by decide) (by decide)⟩



/-! ## Key events -/

theorem lookup_keymap_table_find (map : List (Nat × Nat)) (key : Nat) :
    lookup_keymap_table map key =
      match map.find? (fun e => e.1 == key) with
      | some e => e.2
      | none => 0 := by
  induction map with
  | nil => rfl
  | cons e map ih =>
    rw [lookup_keymap_table, List.find?_cons]
    by_cases h : e.1 = key
    · simp [h]
    · have hb : (e.1 == key) = false := by simpa using h
      simp only [h, if_false, hb]
      exact ih

theorem keysym_codes_target (gc : gp_key → Nat) (mc : mp_key → Nat) (kpadd : Bool)
    (e : Nat × Nat) (he : e ∈ keysym_codes gc mc kpadd) : ∃ m, e.2 = mc m := by
  unfold keysym_codes at he
  obtain ⟨x, -, rfl⟩ := List.mem_map.1 he
  exact ⟨x.2, rfl⟩

/-- C11, counterexample.  With the sample key values, the release of the escape key (event
code 0) is found in `keysym_map` but `wait_events` emits nothing for it, and the release of
the key `a`, which carries the printable character `'a'`, emits nothing and does not stop
the polling either: the escape press queued behind it is still processed. -/
theorem wait_events_key_release :
    lookup_key gp_code_sample mp_code_sample true (ev_esc_sample 0) = mp_code_sample .ESC ∧
    wait_events env_keys_sample [ev_esc_sample 0] = ([], []) ∧
    wait_events env_keys_sample [ev_a_sample 0, ev_esc_sample 1] =
      ([action.put_key (mp_code_sample .ESC)], []) := by
  decide

/-- C11, amended.  For every key event that is not a left/right pointer button and whose
event code is `GP_EV_KEY_DOWN`: if the key carries a non-zero character payload that is not
a control character, `wait_events` emits exactly that character and returns, leaving the
rest of the queue unpolled; otherwise it emits the target of the first entry of
`keysym_map` whose source is the backend key code, and nothing when there is no such entry,
and goes on polling.  A key event with any other event code (release, repeat) emits
nothing. -/
theorem wait_events_key_down (K : env) (gc : gp_key → Nat) (mc : mp_key → Nat) (kpadd : Bool)
    (ev : gp_event) (queue : List gp_event)
    (ht : ev.type = K.GP_EV_KEY) (h1 : K.GP_EV_KEY ≠ K.GP_EV_SYS) (h2 : K.GP_EV_KEY ≠ K.GP_EV_REL)
    (hl : ev.key ≠ K.GP_BTN_LEFT) (hr : ev.key ≠ K.GP_BTN_RIGHT)
    (hlk : K.lookup_key ev = lookup_key gc mc kpadd ev) (hmc : ∀ m, mc m ≠ 0) :
    (ev.code = K.GP_EV_KEY_DOWN → ev.utf ≠ 0 → K.gp_ev_utf_is_ctrl ev = false →
      wait_events K (ev :: queue) = ([action.put_key ev.utf], queue)) ∧
    (ev.code = K.GP_EV_KEY_DOWN → (ev.utf = 0 ∨ K.gp_ev_utf_is_ctrl ev = true) →
      handle_event K ev =
        ((match (keysym_codes gc mc kpadd).find? (fun e => e.1 == ev.key) with
          | some e => [action.put_key e.2]
          | none => []), false) ∧
      wait_events K (ev :: queue) =
        ((handle_event K ev).1 ++ (wait_events K queue).1, (wait_events K queue).2)) ∧
    (ev.code ≠ K.GP_EV_KEY_DOWN →
      handle_event K ev = ([], false) ∧ wait_events K (ev :: queue) = wait_events K queue) := by
  refine ⟨?_, ?_, ?_⟩
  · intro hc hu hctl
    have h : handle_event K ev = ([action.put_key ev.utf], true) := by
      simp [handle_event, ht, h1, h2, hl, hr, hc, hu, hctl]
    simp [wait_events, h]
  · intro hc hu
    have hcond : ¬ (ev.utf ≠ 0 ∧ K.gp_ev_utf_is_ctrl ev = false) := by
      rcases hu with hu | hu
      · exact fun h => h.1 hu
      · intro h; rw [hu] at h; exact absurd h.2 (by decide)
    have h : handle_event K ev =
        ((match (keysym_codes gc mc kpadd).find? (fun e => e.1 == ev.key) with
          | some e => [action.put_key e.2]
          | none => []), false) := by
      unfold handle_event
      simp only [ht, h1, h2, hl, hr, hc, hcond, if_true, if_false, hlk, lookup_key,
        lookup_keymap_table_find]
      cases hf : (keysym_codes gc mc kpadd).find? (fun e => e.1 == ev.key) with
      | none => simp
      | some e =>
        obtain ⟨m, hm⟩ := keysym_codes_target gc mc kpadd e (List.mem_of_find?_eq_some hf)
        have : e.2 ≠ 0 := by rw [hm]; exact hmc m
        simp [this]
    refine ⟨h, ?_⟩
    rw [wait_events]
    simp [h]
  · intro hc
    have h : handle_event K ev = ([], false) := by
      simp [handle_event, ht, h1, h2, hl, hr, hc]
    refine ⟨h, ?_⟩
    rw [wait_events]
    simp [h]

/-- Witness of `wait_events_key_down`: the escape key of the sample environment, pressed,
with nothing else in the queue. -/
theorem wait_events_key_down_witness :
    ((ev_esc_sample 1).type = env_keys_sample.GP_EV_KEY ∧
      env_keys_sample.GP_EV_KEY ≠ env_keys_sample.GP_EV_SYS ∧
      env_keys_sample.GP_EV_KEY ≠ env_keys_sample.GP_EV_REL ∧
      (ev_esc_sample 1).key ≠ env_keys_sample.GP_BTN_LEFT ∧
      (ev_esc_sample 1).key ≠ env_keys_sample.GP_BTN_RIGHT) ∧
    (((ev_esc_sample 1).code = env_keys_sample.GP_EV_KEY_DOWN → (ev_esc_sample 1).utf ≠ 0 →
        env_keys_sample.gp_ev_utf_is_ctrl (ev_esc_sample 1) = false →
        wait_events env_keys_sample (ev_esc_sample 1 :: []) =
          ([action.put_key (ev_esc_sample 1).utf], [])) ∧
      ((ev_esc_sample 1).code = env_keys_sample.GP_EV_KEY_DOWN →
        ((ev_esc_sample 1).utf = 0 ∨ env_keys_sample.gp_ev_utf_is_ctrl (ev_esc_sample 1) = true) →
        handle_event env_keys_sample (ev_esc_sample 1) =
          ((match (keysym_codes gp_code_sample mp_code_sample true).find?
              (fun e => e.1 == (ev_esc_sample 1).key) with
            | some e => [action.put_key e.2]
            | none => []), false) ∧
        wait_events env_keys_sample (ev_esc_sample 1 :: []) =
          ((handle_event env_keys_sample (ev_esc_sample 1)).1 ++
              (wait_events env_keys_sample []).1, (wait_events env_keys_sample []).2)) ∧
      ((ev_esc_sample 1).code ≠ env_keys_sample.GP_EV_KEY_DOWN →
        handle_event env_keys_sample (ev_esc_sample 1) = ([], false) ∧
        wait_events env_keys_sample (ev_esc_sample 1 :: []) =
          wait_events env_keys_sample [])) :=
  ⟨by decide,
   wait_events_key_down env_keys_sample gp_code_sample mp_code_sample true (ev_esc_sample 1) []
     rfl (by decide) (by decide) (by decide) (by decide) rfl
     (by intro m; cases m <;> simp [mp_code_sample])⟩

/-- C12.  Whether or not the entries under `#ifdef MP_KEY_KPADD` are compiled in, the table
`keysym_map` has two entries whose source is `GP_KEY_TAB` (the 4th and the 9th, both with
target `MP_KEY_TAB`), so the sources of its entries are not pairwise distinct, whatever the
numeric values of the key names are.  Without the 9th entry the source names are pairwise
distinct. -/
theorem keysym_map_tab_twice (kpadd : Bool) :
    (keysym_map kpadd).get? 3 = some (gp_key.TAB, mp_key.TAB) ∧
    (keysym_map kpadd).get? 8 = some (gp_key.TAB, mp_key.TAB) ∧
    ¬ ((keysym_map kpadd).map Prod.fst).Nodup ∧
    (∀ (gc : gp_key → Nat) (mc : mp_key → Nat),
      ¬ ((keysym_codes gc mc kpadd).map Prod.fst).Nodup) ∧
    (((keysym_map kpadd).eraseIdx 8).map Prod.fst).Nodup := by
  have h3 : ¬ ((keysym_map kpadd).map Prod.fst).Nodup := by cases kpadd <;> decide
  refine ⟨by cases kpadd <;> rfl, by cases kpadd <;> rfl, h3, ?_, by cases kpadd <;> decide⟩
  intro gc mc hnd
  apply h3
  have : (keysym_codes gc mc kpadd).map Prod.fst = ((keysym_map kpadd).map Prod.fst).map gc := by
    simp [keysym_codes, List.map_map, Function.comp_def]
  rw [this] at hnd
  exact List.Nodup.of_map gc hnd

/-! ## Initialisation -/

/-- C13, counterexample.  A backend whose surface reports the encoding `GP_PIXEL_UNKNOWN`,
or an encoding for which the `switch` of `preinit` has no case, is not refused: the `default`
arm chooses the frame type `GP_PIXEL_RGB888` with the format `IMGFMT_BGR24`, and `preinit`
returns 0. -/
theorem preinit_unmapped_encoding_succeeds :
    preinit (some .UNKNOWN) .OSD_TYPE_AUTO true =
      { ret := 0,
        priv := some { mpv_pixel_type := .RGB888, mpv_pixel_format := .BGR24,
                       osd := .OSD_TYPE_MPV } } ∧
    preinit (some (.other 7)) .OSD_TYPE_AUTO true =
      { ret := 0,
        priv := some { mpv_pixel_type := .RGB888, mpv_pixel_format := .BGR24,
                       osd := .OSD_TYPE_MPV } } := by
  constructor <;> rfl

/-- C13, amended.  The function `preinit` returns a non-zero value exactly when the backend
cannot be opened, and the value is then -1, with no frame format chosen.  With an open
backend it returns 0 whatever the encoding of the surface is, and the frame type and format
it leaves are: G8 / Y8 for 1-, 2-, 4- and 8-bit grayscale; G16 / Y16 for 16-bit grayscale
where that encoding is defined; xRGB8888 / BGR0 for xRGB8888; RGB565_LE / RGB565 for both
RGB565 byte orders; and RGB888 / BGR24 for every other encoding, `GP_PIXEL_UNKNOWN`
included. -/
theorem preinit_fails_only_without_backend (backend : Option gp_pixel_type)
    (opt_osd : osd_type) (g16 : Bool) :
    ((preinit backend opt_osd g16).ret ≠ 0 ↔ backend = none) ∧
    preinit none opt_osd g16 = { ret := -1, priv := none } ∧
    (∀ pt : gp_pixel_type,
      (preinit (some pt) opt_osd g16).ret = 0 ∧
      (preinit (some pt) opt_osd g16).priv.map
          (fun p => (p.mpv_pixel_type, p.mpv_pixel_format)) =
        some
          (if pt ∈ [gp_pixel_type.G1_UB, .G1_DB, .G2_UB, .G2_DB, .G4_UB, .G4_DB, .G8] then
            (gp_pixel_type.G8, imgfmt.Y8)
           else if pt = .G16 ∧ g16 = true then (gp_pixel_type.G16, imgfmt.Y16)
           else if pt = .xRGB8888 then (gp_pixel_type.xRGB8888, imgfmt.BGR0)
           else if pt = .RGB565_LE ∨ pt = .RGB565_BE then
            (gp_pixel_type.RGB565_LE, imgfmt.RGB565)
           else (gp_pixel_type.RGB888, imgfmt.BGR24))) := by
  have hsw : ∀ pt, (preinit_switch g16 pt).mpv_pixel_type ≠ gp_pixel_type.UNKNOWN := by
    intro pt
    cases pt <;> cases g16 <;> simp [preinit_switch]
  refine ⟨?_, rfl, ?_⟩
  · cases backend with
    | none => simp [preinit]
    | some pt => simp [preinit, hsw pt]
  · intro pt
    refine ⟨by simp [preinit, hsw pt], ?_⟩
    cases pt <;> cases g16 <;> simp [preinit, preinit_switch]

/-! ## Text drawing -/

/-! ## The subtitle splitter on every non-empty subtitle -/

theorem strlen_no_nul (s : List Nat) (hz : ∀ y ∈ s, y ≠ 0) : strlen s = s.length := by
  unfold strlen
  rw [List.takeWhile_eq_self_iff.2]
  intro y hy
  simpa using hz y hy

theorem rd_in_bounds (s : List Nat) (hz : ∀ y ∈ s, y ≠ 0) (k : Nat) (hk : k ≤ s.length) :
    rd s k = .ok (s.getD k 0) := by
  simp [rd, strlen_no_nul s hz, hk]

theorem rd_past_nul (s : List Nat) (hz : ∀ y ∈ s, y ≠ 0) (k : Nat) (hk : s.length < k) :
    rd s k = .error .oob := by
  simp [rd, strlen_no_nul s hz, Nat.not_le.2 hk]

/-- More budget does not change a run of the splitting loop that ended without using up
its budget. -/
theorem split_loop_mono (s : List Nat) (n : Nat) : ∀ (m : Nat) (st : split_state)
    (res : Except Fault split_state),
    split_loop s n st = res → res ≠ .error .fuel → split_loop s (n + m) st = res := by
  induction n with
  | zero => intro m st res h hne; simp [split_loop] at h; exact absurd h.symm hne
  | succ n ih =>
    intro m st res h hne
    rw [Nat.succ_add, split_loop]
    rw [split_loop] at h
    by_cases hd : st.done = true
    · simpa [hd] using h
    · simp only [hd] at h ⊢
      cases hs : split_step s st with
      | error e => simpa [hs] using h
      | ok st1 =>
        simp only [hs] at h ⊢
        exact ih m st1 res h hne

/-- Scanning the first line: bytes other than the NUL and the newline are counted. -/
theorem split_loop_scan0 (s : List Nat) (hz : ∀ y ∈ s, y ≠ 0) (k : Nat) : ∀ (j n : Nat),
    (∀ m, j < m → m ≤ j + k → m ≤ s.length ∧ s.getD m 0 ≠ 0 ∧ s.getD m 0 ≠ 10) →
    split_loop s (n + k)
        { sub_text := 0, lines1 := none, len0 := j, len1 := 0, i := 0, done := false } =
      split_loop s n
        { sub_text := 0, lines1 := none, len0 := j + k, len1 := 0, i := 0, done := false } := by
  induction k with
  | zero => intro j n _; rfl
  | succ k ih =>
    intro j n h
    obtain ⟨h1, h2, h3⟩ := h (j + 1) (Nat.lt_succ_self _) (by omega)
    have hstep : split_step s
        { sub_text := 0, lines1 := none, len0 := j, len1 := 0, i := 0, done := false } =
        .ok { sub_text := 0, lines1 := none, len0 := j + 1, len1 := 0, i := 0, done := false } := by
      have h2' : s[j + 1]?.getD 0 ≠ 0 := by simpa using h2
      have h3' : s[j + 1]?.getD 0 ≠ 10 := by simpa using h3
      simp [split_step, rd_in_bounds s hz (j + 1) h1, h2', h3']
    rw [← Nat.add_assoc, split_loop]
    simp only [hstep]
    rw [ih (j + 1) n (fun m hm1 hm2 => h m (by omega) (by omega))]
    simp [Nat.add_assoc, Nat.add_comm 1 k]

/-- Scanning the second line, which starts at offset `p`. -/
theorem split_loop_scan1 (s : List Nat) (hz : ∀ y ∈ s, y ≠ 0) (p l0 : Nat) (k : Nat) :
    ∀ (j n : Nat),
    (∀ m, j < m → m ≤ j + k → p + m ≤ s.length ∧ s.getD (p + m) 0 ≠ 0 ∧ s.getD (p + m) 0 ≠ 10) →
    split_loop s (n + k)
        { sub_text := p, lines1 := some p, len0 := l0, len1 := j, i := 1, done := false } =
      split_loop s n
        { sub_text := p, lines1 := some p, len0 := l0, len1 := j + k, i := 1, done := false } := by
  induction k with
  | zero => intro j n _; rfl
  | succ k ih =>
    intro j n h
    obtain ⟨h1, h2, h3⟩ := h (j + 1) (Nat.lt_succ_self _) (by omega)
    have hstep : split_step s
        { sub_text := p, lines1 := some p, len0 := l0, len1 := j, i := 1, done := false } =
        .ok { sub_text := p, lines1 := some p, len0 := l0, len1 := j + 1, i := 1,
              done := false } := by
      have h2' : s[p + (j + 1)]?.getD 0 ≠ 0 := by simpa using h2
      have h3' : s[p + (j + 1)]?.getD 0 ≠ 10 := by simpa using h3
      simp [split_step, rd_in_bounds s hz (p + (j + 1)) h1, h2', h3']
    rw [← Nat.add_assoc, split_loop]
    simp only [hstep]
    rw [ih (j + 1) n (fun m hm1 hm2 => h m (by omega) (by omega))]
    simp [Nat.add_assoc, Nat.add_comm 1 k]

theorem getD_cons_append_left (c : Nat) (u rest : List Nat) (i : Nat) (hi : i < u.length) :
    (c :: (u ++ rest)).getD (i + 1) 0 ∈ u := by
  have : (c :: (u ++ rest)).getD (i + 1) 0 = u[i] := by
    simp [List.getD_eq_getElem?_getD, List.getElem?_append_left hi, List.getElem?_eq_getElem hi]
  rw [this]
  exact List.getElem_mem _

theorem getD_cons_append_right (c : Nat) (u rest : List Nat) (i : Nat) :
    (c :: (u ++ rest)).getD (u.length + 1 + i) 0 = rest.getD i 0 := by
  have : u.length + 1 + i = (u.length + i) + 1 := by omega
  rw [this]
  simp [List.getD_eq_getElem?_getD, List.getElem?_append_right]

theorem split_loop_done (s : List Nat) (n : Nat) (st : split_state) (hd : st.done = true) :
    split_loop s (n + 1) st = .ok st := by
  simp [split_loop, hd]

/-- A subtitle `c r` without a newline after its first byte: the splitter records one line,
the whole string. -/
theorem render_sub_text_split_one_line (c : Nat) (r : List Nat)
    (hz : ∀ y ∈ c :: r, y ≠ 0) (hn : ∀ y ∈ r, y ≠ 10) :
    render_sub_text_split (c :: r) =
      .ok { sub_text := 0, lines1 := none, len0 := r.length + 1, len1 := 0, i := 0,
            done := true } := by
  unfold render_sub_text_split split_init
  have hscan := split_loop_scan0 (c :: r) hz r.length 0 3 (by
    intro m hm1 hm2
    obtain ⟨i, rfl⟩ : ∃ i, m = i + 1 := ⟨m - 1, by omega⟩
    have hi : i < r.length := by omega
    have hmem := getD_cons_append_left c r [] i hi
    rw [List.append_nil] at hmem
    exact ⟨by simp; omega, hz _ (List.mem_cons_of_mem _ hmem), hn _ hmem⟩)
  rw [Nat.zero_add] at hscan
  have hfuel : (c :: r).length + 2 = 3 + r.length := by simp; omega
  rw [hfuel, hscan]
  have hstep : split_step (c :: r)
      { sub_text := 0, lines1 := none, len0 := r.length, len1 := 0, i := 0, done := false } =
      .ok { sub_text := 0, lines1 := none, len0 := r.length + 1, len1 := 0, i := 0,
            done := true } := by
    have hrd := rd_in_bounds (c :: r) hz (r.length + 1) (by simp)
    have hg : (c :: r).getD (r.length + 1) 0 = 0 := by
      simp [List.getD_eq_getElem?_getD]
    rw [hg] at hrd
    simp [split_step, hrd]
  rw [split_loop]
  simp only [hstep]
  rw [split_loop_done _ 1 _ rfl]
  simp

/-- A subtitle whose first newline after the first byte is its last byte: after the newline
the splitter reads the byte that follows the terminating NUL. -/
theorem render_sub_text_split_newline_last (c : Nat) (u : List Nat)
    (hz : ∀ y ∈ c :: (u ++ [10]), y ≠ 0) (hn : ∀ y ∈ u, y ≠ 10) :
    render_sub_text_split (c :: (u ++ [10])) = .error .oob := by
  unfold render_sub_text_split split_init
  have hscan := split_loop_scan0 (c :: (u ++ [10])) hz u.length 0 4 (by
    intro m hm1 hm2
    obtain ⟨i, rfl⟩ : ∃ i, m = i + 1 := ⟨m - 1, by omega⟩
    have hi : i < u.length := by omega
    have hmem := getD_cons_append_left c u [10] i hi
    exact ⟨by simp; omega, hz _ (List.mem_cons_of_mem _ (List.mem_append_left _ hmem)),
      hn _ hmem⟩)
  rw [Nat.zero_add] at hscan
  have hfuel : (c :: (u ++ [10])).length + 2 = 4 + u.length := by simp; omega
  rw [hfuel, hscan]
  have hstep : split_step (c :: (u ++ [10]))
      { sub_text := 0, lines1 := none, len0 := u.length, len1 := 0, i := 0, done := false } =
      .ok { sub_text := u.length + 2, lines1 := some (u.length + 2), len0 := u.length + 1,
            len1 := 0, i := 1, done := false } := by
    have hrd := rd_in_bounds (c :: (u ++ [10])) hz (u.length + 1) (by simp)
    have hg : (c :: (u ++ [10])).getD (u.length + 1) 0 = 10 := by
      simp
    rw [hg] at hrd
    simp [split_step, hrd]
  have hstep2 : split_step (c :: (u ++ [10]))
      { sub_text := u.length + 2, lines1 := some (u.length + 2), len0 := u.length + 1,
        len1 := 0, i := 1, done := false } = .error .oob := by
    have hrd := rd_past_nul (c :: (u ++ [10])) hz (u.length + 2 + 1) (by simp)
    simp [split_step, hrd]
  rw [split_loop]
  simp only [hstep]
  rw [split_loop]
  simp only [hstep2]
  simp

/-- A subtitle with a newline after its first byte and at least one byte after that newline:
the splitter records two lines, the first up to that newline and the second from the byte
after it up to the next newline or the end of the string, whichever comes first (the first
byte of the second line is not examined). -/
theorem render_sub_text_split_two_lines (c d : Nat) (u w rest : List Nat)
    (hz : ∀ y ∈ c :: (u ++ 10 :: d :: (w ++ rest)), y ≠ 0)
    (hu : ∀ y ∈ u, y ≠ 10) (hw : ∀ y ∈ w, y ≠ 10) (hrest : rest = [] ∨ rest.head? = some 10) :
    render_sub_text_split (c :: (u ++ 10 :: d :: (w ++ rest))) =
      .ok { sub_text := u.length + 2, lines1 := some (u.length + 2), len0 := u.length + 1,
            len1 := w.length + 1, i := 1, done := true } := by
  have key : split_loop (c :: (u ++ 10 :: d :: (w ++ rest))) (3 + w.length + u.length)
      split_init =
      .ok { sub_text := u.length + 2, lines1 := some (u.length + 2), len0 := u.length + 1,
            len1 := w.length + 1, i := 1, done := true } := by
    unfold split_init
    have hscan := split_loop_scan0 (c :: (u ++ 10 :: d :: (w ++ rest))) hz u.length 0
      (3 + w.length) (by
        intro m hm1 hm2
        obtain ⟨i, rfl⟩ : ∃ i, m = i + 1 := ⟨m - 1, by omega⟩
        have hi : i < u.length := by omega
        have hmem := getD_cons_append_left c u (10 :: d :: (w ++ rest)) i hi
        exact ⟨by simp; omega, hz _ (List.mem_cons_of_mem _ (List.mem_append_left _ hmem)),
          hu _ hmem⟩)
    rw [Nat.zero_add] at hscan
    have hstep : split_step (c :: (u ++ 10 :: d :: (w ++ rest)))
        { sub_text := 0, lines1 := none, len0 := u.length, len1 := 0, i := 0,
          done := false } =
        .ok { sub_text := u.length + 2, lines1 := some (u.length + 2), len0 := u.length + 1,
              len1 := 0, i := 1, done := false } := by
      have hrd := rd_in_bounds (c :: (u ++ 10 :: d :: (w ++ rest))) hz (u.length + 1)
        (by simp)
      have hg : (c :: (u ++ 10 :: d :: (w ++ rest))).getD (u.length + 1) 0 = 10 := by
        have := getD_cons_append_right c u (10 :: d :: (w ++ rest)) 0
        simpa using this
      rw [hg] at hrd
      simp [split_step, hrd]
    have l1 : split_loop (c :: (u ++ 10 :: d :: (w ++ rest))) (3 + w.length)
        { sub_text := 0, lines1 := none, len0 := u.length, len1 := 0, i := 0,
          done := false } =
        split_loop (c :: (u ++ 10 :: d :: (w ++ rest))) (2 + w.length)
          { sub_text := u.length + 2, lines1 := some (u.length + 2), len0 := u.length + 1,
            len1 := 0, i := 1, done := false } := by
      have e3 : 3 + w.length = (2 + w.length) + 1 := by omega
      rw [e3, split_loop]
      simp [hstep]
    -- the second line
    have hpos : ∀ i, (c :: (u ++ 10 :: d :: (w ++ rest))).getD (u.length + 2 + (i + 1)) 0 =
        (w ++ rest).getD i 0 := by
      intro i
      have := getD_cons_append_right c u (10 :: d :: (w ++ rest)) (i + 2)
      have e : u.length + 2 + (i + 1) = u.length + 1 + (i + 2) := by omega
      rw [e, this]
      rfl
    have hscan1 := split_loop_scan1 (c :: (u ++ 10 :: d :: (w ++ rest))) hz (u.length + 2)
      (u.length + 1) w.length 0 2 (by
        intro m hm1 hm2
        obtain ⟨i, rfl⟩ : ∃ i, m = i + 1 := ⟨m - 1, by omega⟩
        have hi : i < w.length := by omega
        have hmem : (w ++ rest).getD i 0 ∈ w := by
          have : (w ++ rest).getD i 0 = w[i] := by
            simp [List.getD_eq_getElem?_getD, List.getElem?_append_left hi,
              List.getElem?_eq_getElem hi]
          rw [this]
          exact List.getElem_mem _
        rw [hpos i]
        refine ⟨by simp; omega, hz _ ?_, hw _ hmem⟩
        exact List.mem_cons_of_mem _ (List.mem_append_right _ (List.mem_cons_of_mem _
          (List.mem_cons_of_mem _ (List.mem_append_left _ hmem)))))
    rw [Nat.zero_add] at hscan1
    have hend : (w ++ rest).getD w.length 0 = 0 ∨ (w ++ rest).getD w.length 0 = 10 := by
      have hr : (w ++ rest).getD w.length 0 = rest.getD 0 0 := by
        have := @List.getElem?_append_right _ w rest w.length (le_refl _)
        simp [List.getD_eq_getElem?_getD, this]
      rw [hr]
      rcases hrest with rfl | h10
      · left; rfl
      · right
        cases rest with
        | nil => simp at h10
        | cons x rest =>
          simp only [List.head?_cons, Option.some.injEq] at h10
          subst h10
          rfl
    have hstep1 : split_step (c :: (u ++ 10 :: d :: (w ++ rest)))
        { sub_text := u.length + 2, lines1 := some (u.length + 2), len0 := u.length + 1,
          len1 := w.length, i := 1, done := false } =
        .ok { sub_text := u.length + 2, lines1 := some (u.length + 2), len0 := u.length + 1,
              len1 := w.length + 1, i := 1, done := true } := by
      have hrd := rd_in_bounds (c :: (u ++ 10 :: d :: (w ++ rest))) hz
        (u.length + 2 + (w.length + 1)) (by simp; omega)
      rw [hpos w.length] at hrd
      rcases hend with h | h
      · rw [h] at hrd
        simp [split_step, hrd]
      · rw [h] at hrd
        simp [split_step, hrd]
    have l2 : split_loop (c :: (u ++ 10 :: d :: (w ++ rest))) 2
        { sub_text := u.length + 2, lines1 := some (u.length + 2), len0 := u.length + 1,
          len1 := w.length, i := 1, done := false } =
        .ok { sub_text := u.length + 2, lines1 := some (u.length + 2), len0 := u.length + 1,
              len1 := w.length + 1, i := 1, done := true } := by
      rw [split_loop]
      simp [hstep1, split_loop]
    rw [hscan, l1, hscan1, l2]
  unfold render_sub_text_split
  have hfuel : (c :: (u ++ 10 :: d :: (w ++ rest))).length + 2 =
      (3 + w.length + u.length) + (rest.length + 2) := by
    simp; omega
  rw [hfuel]
  exact split_loop_mono _ _ _ _ _ key (by simp)

theorem split_at_newline (l : List Nat) :
    ∃ u rest, l = u ++ rest ∧ (∀ y ∈ u, y ≠ 10) ∧ (rest = [] ∨ rest.head? = some 10) := by
  induction l with
  | nil => exact ⟨[], [], rfl, by simp, Or.inl rfl⟩
  | cons x l ih =>
    by_cases hx : x = 10
    · exact ⟨[], x :: l, rfl, by simp, Or.inr (by simp [hx])⟩
    · obtain ⟨u, rest, e1, e2, e3⟩ := ih
      refine ⟨x :: u, rest, by simp [e1], ?_, e3⟩
      intro y hy
      rcases List.mem_cons.1 hy with rfl | hy
      · exact hx
      · exact e2 y hy

/-- Every non-empty subtitle `c r` is of one of three kinds: no newline after the first
byte; the first such newline is the last byte; or that newline is followed by a second
line. -/
theorem sub_text_cases (r : List Nat) :
    (∀ y ∈ r, y ≠ 10) ∨
    (∃ u, r = u ++ [10] ∧ ∀ y ∈ u, y ≠ 10) ∨
    (∃ u d w rest, r = u ++ 10 :: d :: (w ++ rest) ∧ (∀ y ∈ u, y ≠ 10) ∧ (∀ y ∈ w, y ≠ 10) ∧
      (rest = [] ∨ rest.head? = some 10)) := by
  obtain ⟨u, rest, e1, e2, e3⟩ := split_at_newline r
  rcases e3 with rfl | h10
  · left
    simpa [e1] using e2
  · right
    cases rest with
    | nil => simp at h10
    | cons x rest =>
      simp only [List.head?_cons, Option.some.injEq] at h10
      subst h10
      cases rest with
      | nil => exact Or.inl ⟨u, e1, e2⟩
      | cons d rest =>
        obtain ⟨w, rest2, k1, k2, k3⟩ := split_at_newline rest
        exact Or.inr ⟨u, d, w, rest2, by rw [e1, k1], e2, k2, k3⟩

/-- A subtitle without a newline after its first byte is drawn as one line, the whole
string, at `x = W / 2` and `y = H - L`: the shadow at `(x + 1, y + 1)`, then the text. -/
theorem render_sub_text_one_line (W H L : Nat) (c : Nat) (r : List Nat)
    (hz : ∀ y ∈ c :: r, y ≠ 0) (hn : ∀ y ∈ r, y ≠ 10) :
    render_sub_text W H L (c :: r) = .ok
      [ { font := .sub_font, x := ((W / 2 : Nat) : Int) + 1, y := (H : Int) - L + 1,
          align := .center_above, fg := .black, bg := .white, str := c :: r },
        { font := .sub_font, x := ((W / 2 : Nat) : Int), y := (H : Int) - L,
          align := .center_above, fg := .white, bg := .black, str := c :: r } ] := by
  unfold render_sub_text
  rw [render_sub_text_split_one_line c r hz hn]
  simp [render_sub_text_draw, sub_draw_loop, sub_line_ops]

/-- A subtitle with a newline after its first byte and at least one byte after that newline
is drawn as two lines at `x = W / 2`: the bytes before the newline at `y = H - 2 * L`, and
the bytes after it, up to the next newline that is not the first byte of the line or the end
of the string, at that `y` plus `L`; each line as shadow at `(x + 1, y + 1)`, then text. -/
theorem render_sub_text_two_lines (W H L : Nat) (c d : Nat) (u w rest : List Nat)
    (hz : ∀ y ∈ c :: (u ++ 10 :: d :: (w ++ rest)), y ≠ 0)
    (hu : ∀ y ∈ u, y ≠ 10) (hw : ∀ y ∈ w, y ≠ 10) (hrest : rest = [] ∨ rest.head? = some 10) :
    render_sub_text W H L (c :: (u ++ 10 :: d :: (w ++ rest))) = .ok
      [ { font := .sub_font, x := ((W / 2 : Nat) : Int) + 1, y := (H : Int) - 2 * L + 1,
          align := .center_above, fg := .black, bg := .white, str := c :: u },
        { font := .sub_font, x := ((W / 2 : Nat) : Int), y := (H : Int) - 2 * L,
          align := .center_above, fg := .white, bg := .black, str := c :: u },
        { font := .sub_font, x := ((W / 2 : Nat) : Int) + 1, y := (H : Int) - 2 * L + L + 1,
          align := .center_above, fg := .black, bg := .white, str := d :: w },
        { font := .sub_font, x := ((W / 2 : Nat) : Int), y := (H : Int) - 2 * L + L,
          align := .center_above, fg := .white, bg := .black, str := d :: w } ] := by
  unfold render_sub_text
  rw [render_sub_text_split_two_lines c d u w rest hz hu hw hrest]
  have e : List.drop (u.length + 2) (c :: (u ++ 10 :: d :: (w ++ rest))) = d :: (w ++ rest) := by
    have : c :: (u ++ 10 :: d :: (w ++ rest)) = (c :: (u ++ [10])) ++ (d :: (w ++ rest)) := by
      simp
    rw [this, List.drop_left']
    simp
  simp [render_sub_text_draw, sub_draw_loop, sub_line_ops, e]

/-- A subtitle whose first newline after the first byte is its last byte is not drawn in a
defined way: the splitter reads past the terminating NUL. -/
theorem render_sub_text_newline_last (W H L : Nat) (c : Nat) (u : List Nat)
    (hz : ∀ y ∈ c :: (u ++ [10]), y ≠ 0) (hn : ∀ y ∈ u, y ≠ 10) :
    render_sub_text W H L (c :: (u ++ [10])) = .error .oob := by
  unfold render_sub_text
  rw [render_sub_text_split_newline_last c u hz hn]

/-- C14.  On a surface of `W × H` pixels with subtitle line height `L`: the subtitle
`"\nab"`, whose text has two lines (an empty one and `"ab"`), is drawn as the single line
`"\nab"` anchored at `y = H - L`, not as two lines from `y = H - 2 * L` on, because the
first byte of a line is never examined; and the subtitle `"ab\n"` is not drawn in a defined
way, the splitter reads the byte after the terminating NUL.  The subtitle `"ab\ncd"` is
drawn as `"ab"` at `y = H - 2 * L` and `"cd"` at that `y` plus `L`, and `"ab"` as one line at
`y = H - L`, all at `x = W / 2`, each line first as shadow at `(x + 1, y + 1)` and then as
text at `(x, y)`. -/
theorem render_sub_text_leading_newline (W H L : Nat) :
    render_sub_text W H L (bytes "\nab") = .ok
      [ { font := .sub_font, x := ((W / 2 : Nat) : Int) + 1, y := (H : Int) - L + 1,
          align := .center_above, fg := .black, bg := .white, str := bytes "\nab" },
        { font := .sub_font, x := ((W / 2 : Nat) : Int), y := (H : Int) - L,
          align := .center_above, fg := .white, bg := .black, str := bytes "\nab" } ] ∧
    render_sub_text W H L (bytes "ab\n") = .error .oob ∧
    render_sub_text W H L (bytes "ab\ncd") = .ok
      [ { font := .sub_font, x := ((W / 2 : Nat) : Int) + 1, y := (H : Int) - 2 * L + 1,
          align := .center_above, fg := .black, bg := .white, str := bytes "ab" },
        { font := .sub_font, x := ((W / 2 : Nat) : Int), y := (H : Int) - 2 * L,
          align := .center_above, fg := .white, bg := .black, str := bytes "ab" },
        { font := .sub_font, x := ((W / 2 : Nat) : Int) + 1, y := (H : Int) - 2 * L + L + 1,
          align := .center_above, fg := .black, bg := .white, str := bytes "cd" },
        { font := .sub_font, x := ((W / 2 : Nat) : Int), y := (H : Int) - 2 * L + L,
          align := .center_above, fg := .white, bg := .black, str := bytes "cd" } ] ∧
    render_sub_text W H L (bytes "ab") = .ok
      [ { font := .sub_font, x := ((W / 2 : Nat) : Int) + 1, y := (H : Int) - L + 1,
          align := .center_above, fg := .black, bg := .white, str := bytes "ab" },
        { font := .sub_font, x := ((W / 2 : Nat) : Int), y := (H : Int) - L,
          align := .center_above, fg := .white, bg := .black, str := bytes "ab" } ] := by
  refine ⟨?_, ?_, ?_, ?_⟩
  · exact render_sub_text_one_line W H L 10 [97, 98] (by decide) (by decide)
  · exact render_sub_text_newline_last W H L 97 [98] (by decide) (by decide)
  · exact render_sub_text_two_lines W H L 97 99 [98] [100] [] (by decide) (by decide)
      (by decide) (Or.inl rfl)
  · exact render_sub_text_one_line W H L 97 [98] (by decide) (by decide)

/-- For every OSD string whose first byte is 0xFF and whose second byte is not the
terminating NUL, `render_osd_text` writes over the byte after the 0xFF: `'>'` when it is the
play icon code, `'"'` when it is the pause icon code, a space for any other byte; the 0xFF
and all bytes after the substituted one are left as they were; and the string that starts at
the substituted byte is drawn by two plain `gp_text` calls in the regular OSD style, the
shadow at `(h + 1, h + 1)` and the text at `(h, h)`. -/
theorem render_osd_text_icon (M : metrics) (OSD_PLAY OSD_PAUSE : Nat) (c : Nat)
    (rest : List Nat) (hc : c ≠ 0) :
    render_osd_text M OSD_PLAY OSD_PAUSE (some (0xff :: c :: rest)) =
      { buf := 0xff :: icon_glyph OSD_PLAY OSD_PAUSE c :: rest,
        nul_overwritten := false,
        ops :=
          [ { font := .osd_font, x := M.osd_h + 1, y := M.osd_h + 1, align := .right_below,
              fg := .black, bg := .white, str := icon_glyph OSD_PLAY OSD_PAUSE c :: rest },
            { font := .osd_font, x := M.osd_h, y := M.osd_h, align := .right_below,
              fg := .white, bg := .black, str := icon_glyph OSD_PLAY OSD_PAUSE c :: rest } ],
        fault := none } ∧
    (c = OSD_PLAY → icon_glyph OSD_PLAY OSD_PAUSE c = 62) ∧
    (c = OSD_PAUSE → OSD_PLAY ≠ OSD_PAUSE → icon_glyph OSD_PLAY OSD_PAUSE c = 34) ∧
    (c ≠ OSD_PLAY → c ≠ OSD_PAUSE → icon_glyph OSD_PLAY OSD_PAUSE c = 32) := by
  refine ⟨?_, ?_, ?_, ?_⟩
  · simp [render_osd_text, deref, hc, osd_plain_ops]
  · intro h; simp [icon_glyph, h]
  · intro h hne
    have : ¬ OSD_PAUSE = OSD_PLAY := fun e => hne e.symm
    simp [icon_glyph, h, this]
  · intro h1 h2; simp [icon_glyph, h1, h2]

/-- C15.  On the OSD string that consists of the byte 0xFF alone, the byte after the 0xFF
is the terminating NUL: `render_osd_text` writes the glyph over it (a space, for icon codes
1 and 2 as for any codes other than 0), so the string handed to `gp_text` has lost its
terminator and the drawing calls read past the end of the buffer.  The same happens with any
font metrics and icon codes.  On `0xFF 0x01 "abc"` the string `">abc"` is drawn, shadow
first, in the regular style; on `0xFF 0x02 "abc"` the string `abc` with a double quote before
it; and on `0xFF "Zabc"` the string `" abc"`. -/
theorem render_osd_text_icon_alone (M : metrics) (OSD_PLAY OSD_PAUSE : Nat) :
    render_osd_text M OSD_PLAY OSD_PAUSE (some [0xff]) =
      { buf := [0xff, icon_glyph OSD_PLAY OSD_PAUSE 0], nul_overwritten := true, ops := [],
        fault := some .oob } ∧
    render_osd_text M 1 2 (some [0xff]) =
      { buf := [0xff, 32], nul_overwritten := true, ops := [], fault := some .oob } ∧
    render_osd_text M 1 2 (some (0xff :: 1 :: bytes "abc")) =
      { buf := 0xff :: bytes ">abc", nul_overwritten := false,
        ops :=
          [ { font := .osd_font, x := M.osd_h + 1, y := M.osd_h + 1, align := .right_below,
              fg := .black, bg := .white, str := bytes ">abc" },
            { font := .osd_font, x := M.osd_h, y := M.osd_h, align := .right_below,
              fg := .white, bg := .black, str := bytes ">abc" } ],
        fault := none } ∧
    render_osd_text M 1 2 (some (0xff :: 2 :: bytes "abc")) =
      { buf := 0xff :: 34 :: bytes "abc", nul_overwritten := false,
        ops :=
          [ { font := .osd_font, x := M.osd_h + 1, y := M.osd_h + 1, align := .right_below,
              fg := .black, bg := .white, str := 34 :: bytes "abc" },
            { font := .osd_font, x := M.osd_h, y := M.osd_h, align := .right_below,
              fg := .white, bg := .black, str := 34 :: bytes "abc" } ],
        fault := none } ∧
    render_osd_text M 1 2 (some (0xff :: bytes "Zabc")) =
      { buf := 0xff :: bytes " abc", nul_overwritten := false,
        ops :=
          [ { font := .osd_font, x := M.osd_h + 1, y := M.osd_h + 1, align := .right_below,
              fg := .black, bg := .white, str := bytes " abc" },
            { font := .osd_font, x := M.osd_h, y := M.osd_h, align := .right_below,
              fg := .white, bg := .black, str := bytes " abc" } ],
        fault := none } := by
  refine ⟨?_, ?_, ?_, ?_, ?_⟩ <;>
    simp [render_osd_text, deref, osd_plain_ops, icon_glyph, bytes]

theorem render_osd_ass_body_y (M : metrics) (c : osd_cursor) (t : text) :
    (render_osd_ass_body M c t).y =
      c.y + (if is_newline_directive t = true then (M.osd_h : Int) else 0) := by
  by_cases h92 : deref (t.str.getD []) = 92
  · by_cases h78 : deref (t.str.getD []).tail = 78
    · simp [is_newline_directive, render_osd_ass_body, h92, h78]
    · by_cases h104 : deref (t.str.getD []).tail = 104
      · simp [is_newline_directive, render_osd_ass_body, h92, h104]
      · simp [is_newline_directive, render_osd_ass_body, h92, h78, h104]
  · simp [is_newline_directive, render_osd_ass_body, h92]

theorem render_osd_ass_fold_y (M : metrics) (toks : List text) : ∀ (c : osd_cursor),
    (toks.foldl (render_osd_ass_body M) c).y =
      c.y + M.osd_h * ((toks.filter is_newline_directive).length : Int) := by
  induction toks with
  | nil => intro c; simp
  | cons t toks ih =>
    intro c
    rw [List.foldl_cons, ih, render_osd_ass_body_y, List.filter_cons]
    by_cases hn : is_newline_directive t = true
    · simp only [hn, if_true, List.length_cons]
      push_cast
      ring
    · simp only [hn, if_false, Bool.false_eq_true]
      ring

/-! ## OSD mode chosen by `preinit` -/

/-- C21.  With an open backend of pixel type `pt`, `preinit` returns 0 and leaves in `priv`:
the configured OSD mode when that is not `auto`, for every `pt`; when it is `auto`, the mode
`OSD_TYPE_GFXPRIM` exactly when `pt` is G1/G2/G4 (either bit order) or G8, and `OSD_TYPE_MPV`
for every other `pt`.  The mode left is never `auto` and the frame pixel type never
`GP_PIXEL_UNKNOWN`; hence `draw_frame` makes exactly one of its two OSD calls: the one of the
host player before the blit in mode `OSD_TYPE_MPV`, its own after the blit otherwise. -/
theorem preinit_osd_mode (pt : gp_pixel_type) (opt_osd : osd_type) (g16 : Bool) :
    ∃ p : preinit_priv,
      preinit (some pt) opt_osd g16 = { ret := 0, priv := some p } ∧
      p.osd =
        (if opt_osd = .OSD_TYPE_AUTO then
          (if pt ∈ [gp_pixel_type.G1_UB, .G1_DB, .G2_UB, .G2_DB, .G4_UB, .G4_DB, .G8]
            then osd_type.OSD_TYPE_GFXPRIM else osd_type.OSD_TYPE_MPV)
         else opt_osd) ∧
      ((opt_osd = .OSD_TYPE_AUTO ∧ p.osd = .OSD_TYPE_GFXPRIM) ↔
        (opt_osd = .OSD_TYPE_AUTO ∧
          pt ∈ [gp_pixel_type.G1_UB, .G1_DB, .G2_UB, .G2_DB, .G4_UB, .G4_DB, .G8])) ∧
      ((opt_osd = .OSD_TYPE_AUTO ∧ p.osd = .OSD_TYPE_MPV) ↔
        (opt_osd = .OSD_TYPE_AUTO ∧
          pt ∉ [gp_pixel_type.G1_UB, .G1_DB, .G2_UB, .G2_DB, .G4_UB, .G4_DB, .G8])) ∧
      p.osd ≠ .OSD_TYPE_AUTO ∧
      p.mpv_pixel_type ≠ .UNKNOWN ∧
      (∀ out_pixel_type, draw_frame_calls p.osd out_pixel_type =
        (if p.osd = .OSD_TYPE_MPV
          then [draw_call.osd_draw_on_image, draw_frame_blit out_pixel_type]
          else [draw_frame_blit out_pixel_type, draw_call.osd_draw_gfxprim])) := by
  refine ⟨{ preinit_switch g16 pt with
            osd := if opt_osd ≠ .OSD_TYPE_AUTO then opt_osd else (preinit_switch g16 pt).osd },
          ?_, ?_, ?_, ?_, ?_, ?_, ?_⟩
  · have hsw : (preinit_switch g16 pt).mpv_pixel_type ≠ gp_pixel_type.UNKNOWN := by
      cases pt <;> cases g16 <;> simp [preinit_switch]
    simp [preinit, hsw]
  · cases opt_osd <;> cases pt <;> cases g16 <;> simp [preinit_switch]
  · cases opt_osd <;> cases pt <;> cases g16 <;> simp [preinit_switch]
  · cases opt_osd <;> cases pt <;> cases g16 <;> simp [preinit_switch]
  · cases opt_osd <;> cases pt <;> cases g16 <;> simp [preinit_switch]
  · cases pt <;> cases g16 <;> simp [preinit_switch]
  · intro o
    cases opt_osd <;> cases pt <;> cases g16 <;> simp [preinit_switch, draw_frame_calls]

/-! ## Layout of the formatted OSD text -/

/-- Every token returned in the loop of `render_osd_ass` has one of the three shapes of
`TokShape`, and its length is the distance from its start to the read position. -/
theorem tokens_loop_shape (n : Nat) : ∀ (t : text), ∀ t' ∈ (tokens_loop n t).1,
    ∃ s, t'.str = some s ∧ t'.len = s.length - t'.ass.length ∧ TokShape s t'.ass := by
  induction n with
  | zero => intro t t' ht'; simp [tokens_loop] at ht'
  | succ n ih =>
    intro t t' ht'
    rw [tokens_loop] at ht'
    cases hnt : next_text t with
    | error e => simp [hnt] at ht'
    | ok v =>
      obtain ⟨r, t1⟩ := v
      cases r with
      | false => simp [hnt] at ht'
      | true =>
        simp only [hnt, List.mem_cons] at ht'
        rcases ht' with rfl | ht'
        · obtain ⟨sk, -, -, -, h4⟩ := next_text_spec t true t' hnt
          obtain ⟨s, -, e2, e3, e4⟩ := h4 rfl
          exact ⟨s, e2, e3, e4⟩
        · exact ih t1 t' ht'

/-- On a token of one of the three shapes, the loop body of `render_osd_ass` does what the
reference layout step does on the bytes and the flag of the token. -/
theorem render_osd_ass_body_spec (M : metrics) (c : osd_cursor) (t : text) (s : List Nat)
    (hs : t.str = some s) (hl : t.len = s.length - t.ass.length) (hsh : TokShape s t.ass) :
    render_osd_ass_body M c t = spec_osd_layout_step M c (tok_bytes t, t.bold) := by
  rcases hsh with ⟨d, hd, rfl⟩ | ⟨rfl, hr⟩ | ⟨run, hne, rfl, hrun, -⟩
  · have hlen : t.len = 2 := by rw [hl]; simp only [List.length_cons]; omega
    have hb : tok_bytes t = [92, d] := by simp [tok_bytes, hs, hlen]
    by_cases h78 : d = 78
    · subst h78
      simp [render_osd_ass_body, spec_osd_layout_step, hs, hb, deref]
    · by_cases h104 : d = 104
      · subst h104
        simp [render_osd_ass_body, spec_osd_layout_step, hs, hb, deref]
      · simp [render_osd_ass_body, spec_osd_layout_step, hs, hb, deref, h78, h104]
  · have hlen : t.len = 1 := by rw [hl]; simp only [List.length_cons]; omega
    have hb : tok_bytes t = [92] := by simp [tok_bytes, hs, hlen]
    have hr' : t.ass.head?.getD 0 = 0 := by simpa [deref] using hr
    simp [render_osd_ass_body, spec_osd_layout_step, hs, hb, deref, hr']
  · have hlen : t.len = run.length := by rw [hl]; simp only [List.length_append]; omega
    have hb : tok_bytes t = run := by simp [tok_bytes, hs, hlen]
    cases run with
    | nil => exact absurd rfl hne
    | cons x run =>
      have hx : ¬ is_stop x := hrun x (List.mem_cons_self _ _)
      simp only [is_stop, not_or] at hx
      have h92 : x ≠ 92 := hx.2.2.2.2
      simp [render_osd_ass_body, spec_osd_layout_step, hs, hb, deref, h92]

theorem foldl_body_spec (M : metrics) (toks : List text) : ∀ (c : osd_cursor),
    (∀ t ∈ toks, ∃ s, t.str = some s ∧ t.len = s.length - t.ass.length ∧ TokShape s t.ass) →
    toks.foldl (render_osd_ass_body M) c =
      (toks.map fun t => (tok_bytes t, t.bold)).foldl (spec_osd_layout_step M) c := by
  induction toks with
  | nil => intro c _; rfl
  | cons t toks ih =>
    intro c h
    obtain ⟨s, e1, e2, e3⟩ := h t (List.mem_cons_self _ _)
    rw [List.foldl_cons, List.map_cons, List.foldl_cons,
      render_osd_ass_body_spec M c t s e1 e2 e3]
    exact ih _ (fun t' ht' => h t' (List.mem_cons_of_mem _ ht'))

theorem spec_osd_layout_fold_y (M : metrics) (toks : List (List Nat × Bool)) :
    ∀ (c : osd_cursor),
    (toks.foldl (spec_osd_layout_step M) c).y =
      c.y + M.osd_h * ((toks.filter fun v => decide (v.1 = [92, 78])).length : Int) := by
  induction toks with
  | nil => intro c; simp
  | cons v toks ih =>
    intro c
    rw [List.foldl_cons, ih, List.filter_cons]
    by_cases hn : v.1 = [92, 78]
    · simp only [hn, decide_True, if_true, List.length_cons, spec_osd_layout_step]
      push_cast
      ring
    · have hy : (spec_osd_layout_step M c v).y = c.y := by
        unfold spec_osd_layout_step
        simp only [hn, if_false]
        split_ifs <;> rfl
      simp only [hn, decide_False, hy]
      simp

set_option maxRecDepth 4000 in
/-- C16.  For every string, `render_osd_ass` lays out the tokens that `next_text` returns on
it exactly as the reference layout does: the cursor starts at `(h, h)` for the OSD line
height `h`; a `\N` token sets `x` to `h` and adds `h` to `y`; a `\h` token adds the average
glyph width to `x`; any other token that begins with a backslash changes nothing; every
other token is drawn at `(x + 1, y + 1)` in black on white and then at `(x, y)` in white on
black, in the bold style exactly when its bold flag is set, and `x` then advances by the
width returned for the run.  After the loop `y = h * (1 + number of \N tokens)`.  On
`"AB{\b1}C\N\hD\xE\"` after a sentinel, with glyphs 6 (regular) and 7 (bold) pixels wide:
`"AB"` regular at `(10, 10)`, `"C"` bold at `(22, 10)`, `"D"` bold at `(16, 20)`, `"E"` bold
at `(23, 20)`, and the cursor ends at `(30, 20)`. -/
theorem render_osd_ass_layout (M : metrics) (ass : List Nat) :
    render_osd_ass M ass = (spec_osd_layout M (tokens_view ass).1, (tokens_view ass).2) ∧
    (render_osd_ass M ass).1.y =
      M.osd_h *
        (1 + (((tokens_view ass).1.filter fun v => decide (v.1 = [92, 78])).length : Int)) ∧
    (render_osd_ass M []).1 = { x := M.osd_h, y := M.osd_h, ops := [] } ∧
    tokens_view (0xfd :: bytes "AB\x7b\\b1\x7dC\\N\\hD\\xE\\") =
      ([(bytes "AB", false), (bytes "C", true), (bytes "\\N", true), (bytes "\\h", true),
        (bytes "D", true), (bytes "\\x", true), (bytes "E", true), (bytes "\\", true)],
       none) ∧
    render_osd_ass metrics_bold_sample (0xfd :: bytes "AB\x7b\\b1\x7dC\\N\\hD\\xE\\") =
      ({ x := 30, y := 20,
         ops :=
          [ { font := .osd_font, x := 11, y := 11, align := .right_below, fg := .black,
              bg := .white, str := bytes "AB" },
            { font := .osd_font, x := 10, y := 10, align := .right_below, fg := .white,
              bg := .black, str := bytes "AB" },
            { font := .osd_bfont, x := 23, y := 11, align := .right_below, fg := .black,
              bg := .white, str := bytes "C" },
            { font := .osd_bfont, x := 22, y := 10, align := .right_below, fg := .white,
              bg := .black, str := bytes "C" },
            { font := .osd_bfont, x := 17, y := 21, align := .right_below, fg := .black,
              bg := .white, str := bytes "D" },
            { font := .osd_bfont, x := 16, y := 20, align := .right_below, fg := .white,
              bg := .black, str := bytes "D" },
            { font := .osd_bfont, x := 24, y := 21, align := .right_below, fg := .black,
              bg := .white, str := bytes "E" },
            { font := .osd_bfont, x := 23, y := 20, align := .right_below, fg := .white,
              bg := .black, str := bytes "E" } ] },
       none) := by
  have hfold : render_osd_ass M ass =
      (spec_osd_layout M (tokens_view ass).1, (tokens_view ass).2) := by
    simp only [render_osd_ass, spec_osd_layout, tokens_view]
    rw [foldl_body_spec M (tokens ass).1 _ (tokens_loop_shape _ _)]
  refine ⟨hfold, ?_, ?_, by decide, by decide⟩
  · rw [hfold]
    simp only [spec_osd_layout, spec_osd_layout_fold_y]
    ring
  · simp [render_osd_ass, tokens, tokens_loop, text_init, next_text, next_text_loop, deref]

end VoGfxprim
